import Mathlib

/-!
Verification of the fast WordPiece tokenizer core
(`tensorflow_text/core/kernels/fast_wordpiece_tokenizer.cc`).

Byte strings are modelled as `List Nat` (one entry per byte).  Codepoints are
`Nat`.  The double-array trie, the bit-packed token encoding, and the ICU
Unicode classifiers are not part of the given sources (only their call sites
are), so they are modelled from the specification as finite tables,
a record of the three packed fields, and abstract predicates respectively.
All functions of the `.cc` file are embedded as executable Lean functions;
loops whose termination depends on model well-formedness take a fuel
parameter and return `none`/`nofuel` on exhaustion.
-/

set_option autoImplicit false

/-- Modelled from the spec (§2.3, §3): the utils header
`fast_wordpiece_tokenizer_utils.h` is not in the sources.  An encoded token
value packs the triple `(token_id, token_byte_length, is_suffix)`;
`GetTokenId`, `GetTokenLength` and `IsSuffixToken` are the projections. -/
structure EncodedToken where
  id : Nat
  length : Nat
  isSuffix : Bool
  deriving DecidableEq, Repr

/-- Modelled from the spec (§3): one entry of `failure_struct_array`.  The
packed `(offset, length)` pair (unpacked by `GetFailurePopsOffsetAndLength`,
which lives in the missing utils header) is stored unpacked. -/
structure FailureStruct where
  failureLink : Nat
  failurePopsOffset : Nat
  failurePopsLength : Nat
  deriving DecidableEq, Repr

/-- The flat model container (`FastWordpieceTokenizerConfig` flatbuffer plus
the trie wrapper).  Modelled from the spec (§3, §4.3) for the parts missing
from the sources: the double-array trie is a finite transition table
`trieEdges` plus a finite data table `trieDataArr`; the Unicode classifiers
`u_isUWhiteSpace` / `IsPunctuationOrChineseChar` are abstract predicates. -/
structure Config where
  vocabArr : List (List Nat)
  vocabIsSuffixArr : List Bool
  suffixIndicator : List Nat
  unkToken : List Nat
  unkTokenId : Nat
  maxBytesPerToken : Nat
  endToEnd : Bool
  supportDetokenization : Bool
  trieRootId : Nat
  nullNode : Nat
  trieEdges : List ((Nat × Nat) × Nat)
  trieDataArr : List (Nat × EncodedToken)
  failureStructArr : List (Nat × FailureStruct)
  failurePopsPool : List EncodedToken
  precomputedResultForSuffixIndicator : List EncodedToken
  trieSuffixRoot : Nat
  triePunctFailureLinkNode : Nat
  isWhitespace : Nat → Bool
  isPunct : Nat → Bool

/-- `DartsCloneTrieWrapper::TryTraverseOneStep`: one byte, `none` when the
trie has no such edge (cursor left unchanged by the caller). -/
def trieStep (cfg : Config) (node b : Nat) : Option Nat :=
  (cfg.trieEdges.find? (fun e => e.1.1 = node ∧ e.1.2 = b)).map (·.2)

/-- `DartsCloneTrieWrapper::TryTraverseSeveralSteps`: atomic multi-byte
advance, `none` unless every byte is consumable. -/
def trieTraverseSeveralSteps (cfg : Config) (node : Nat) (bytes : List Nat) :
    Option Nat :=
  bytes.foldlM (fun n b => trieStep cfg n b) node

/-- `DartsCloneTrieWrapper::TryGetData`: the vocab entry terminating at this
node, if any. -/
def trieData (cfg : Config) (node : Nat) : Option EncodedToken :=
  (cfg.trieDataArr.find? (fun d => d.1 = node)).map (·.2)

/-- `config_->failure_struct_array()->Get(node)`; absent nodes behave as
`(kNullNode, 0, 0)` (no failure link). -/
def failureStructAt (cfg : Config) (node : Nat) : FailureStruct :=
  ((cfg.failureStructArr.find? (fun d => d.1 = node)).map (·.2)).getD
    ⟨cfg.nullNode, 0, 0⟩

/-- The slice `failure_pops_pool[offset .. offset+length)`. -/
def popsSlice (cfg : Config) (fs : FailureStruct) : List EncodedToken :=
  (cfg.failurePopsPool.drop fs.failurePopsOffset).take fs.failurePopsLength

/-- The caller-supplied output containers of `Tokenize`. -/
structure Outputs where
  pieces : List (List Nat)
  ids : List Nat
  starts : List Int
  ends : List Int
  deriving DecidableEq, Repr

def emptyOutputs : Outputs := ⟨[], [], [], []⟩

/-- The compile-time output selection `<kGetPieces, kGetIds, kGetOffsets>`. -/
structure Mode where
  getPieces : Bool
  getIds : Bool
  getOffsets : Bool
  deriving DecidableEq, Repr

def ModeFull : Mode := ⟨true, true, true⟩

def ModeIdsOffsets : Mode := ⟨false, true, true⟩

def ModeIdsOnly : Mode := ⟨false, true, false⟩

/-- `GetCurrentOutputSize<kGetPieces>`. -/
def currentSize (m : Mode) (out : Outputs) : Nat :=
  if m.getPieces then out.pieces.length else out.ids.length

/-- `std::vector::resize` on a list: truncate or pad with a default. -/
def listResize {α : Type} (l : List α) (n : Nat) (d : α) : List α :=
  l.take n ++ List.replicate (n - l.length) d

/-- `FastWordpieceTokenizer::AppendTokenToOutput`.  Returns the grown outputs
and the advanced `cur_offset_in_input_word`. -/
def appendTokenToOutput (cfg : Config) (m : Mode) (inputWord : List Nat)
    (wordOffset : Int) (curOffset : Nat) (tok : EncodedToken) (out : Outputs) :
    Outputs × Nat :=
  let out := if m.getIds then { out with ids := out.ids ++ [tok.id] } else out
  if m.getPieces || m.getOffsets then
    let len := if curOffset == 0 && tok.isSuffix then
        tok.length + cfg.suffixIndicator.length
      else tok.length
    let out := if m.getPieces then
        let sub := if tok.id == cfg.unkTokenId then cfg.unkToken
          else (inputWord.drop curOffset).take len
        let piece := if curOffset == 0 then sub else cfg.suffixIndicator ++ sub
        { out with pieces := out.pieces ++ [piece] }
      else out
    let out := if m.getOffsets then
        { out with
          starts := out.starts ++ [wordOffset + (curOffset : Int)],
          ends := out.ends ++ [wordOffset + (curOffset : Int) + (len : Int)] }
      else out
    (out, curOffset + len)
  else (out, curOffset)

/-- `FastWordpieceTokenizer::ResetOutputAppendUnknownToken`: resize every
active container back to `original_num_tokens + 1` and write the unknown
token into the last slot.  Returns the outputs and the updated
`original_num_tokens` (incremented by one). -/
def resetOutputAppendUnknownToken (cfg : Config) (m : Mode) (wordOffset : Int)
    (inputSize : Nat) (orig : Nat) (out : Outputs) : Outputs × Nat :=
  let out := if m.getPieces then
      { out with pieces := listResize out.pieces orig [] ++ [cfg.unkToken] }
    else out
  let out := if m.getIds then
      { out with ids := listResize out.ids orig 0 ++ [cfg.unkTokenId] }
    else out
  let out := if m.getOffsets then
      { out with
        starts := listResize out.starts orig 0 ++ [wordOffset],
        ends := listResize out.ends orig 0 ++ [wordOffset + (inputSize : Int)] }
    else out
  (out, orig + 1)

/-- `FastWordpieceTokenizer::TryFollowFailureLinkAndCollectTokens`.
`none` models the `false` return (no failure link; the caller's outputs and
cursor are unchanged).  `some (node', out', curOffset')` models the `true`
return with the cursor moved to `node'`. -/
def tryFollowFailureLinkAndCollectTokens (cfg : Config) (m : Mode)
    (inputWord : List Nat) (wordOffset : Int) (curOffset : Nat) (node : Nat)
    (out : Outputs) : Option (Nat × Outputs × Nat) :=
  match trieData cfg node with
  | some tok =>
    let r := appendTokenToOutput cfg m inputWord wordOffset curOffset tok out
    some ((failureStructAt cfg node).failureLink, r.1, r.2)
  | none =>
    let aux := failureStructAt cfg node
    if aux.failureLink = cfg.nullNode then none
    else
      let r := (popsSlice cfg aux).foldl
        (fun (acc : Outputs × Nat) t =>
          appendTokenToOutput cfg m inputWord wordOffset acc.2 t acc.1)
        (out, curOffset)
      some (aux.failureLink, r.1, r.2)

/-- Result of the per-character failure-transition loop
(`while (!TryTraverse...) { if (!TryFollowFailureLink...) goto/return; }`). -/
inductive FWRes where
  | ok (node : Nat) (out : Outputs) (curOffset : Nat)
  | fail (node : Nat) (out : Outputs) (curOffset : Nat)
  | nofuel
  deriving DecidableEq, Repr

/-- The trie-matching loop for one character (byte sequence `bytes`): keep
following failure links until the trie consumes `bytes`, or fail when a null
failure link is met.  `fail` keeps the outputs grown by the successful
failure transitions made so far, exactly as the code does. -/
def matchLoop (cfg : Config) (m : Mode) (inputWord : List Nat)
    (wordOffset : Int) (bytes : List Nat) :
    Nat → Nat → Outputs → Nat → FWRes
  | 0, _, _, _ => .nofuel
  | fuel + 1, node, out, curOffset =>
    match trieTraverseSeveralSteps cfg node bytes with
    | some node' => .ok node' out curOffset
    | none =>
      match tryFollowFailureLinkAndCollectTokens cfg m inputWord wordOffset
          curOffset node out with
      | none => .fail node out curOffset
      | some (node', out', curOffset') =>
        matchLoop cfg m inputWord wordOffset bytes fuel node' out' curOffset'

/-- `FastWordpieceTokenizer::TryHandleTheInputWordBeingSuffixIndicatorItself`.
`none` models the `false` return (outputs untouched); `some (out', curOffset')`
models the `true` return. -/
def tryHandleTheInputWordBeingSuffixIndicatorItself (cfg : Config) (m : Mode)
    (inputWord : List Nat) (wordOffset : Int) (node : Nat) (curOffset : Nat)
    (orig : Nat) (out : Outputs) : Option (Outputs × Nat) :=
  if node ≠ cfg.trieSuffixRoot then none
  else if currentSize m out ≠ orig then none
  else if cfg.precomputedResultForSuffixIndicator.length = 1 ∧
      (cfg.precomputedResultForSuffixIndicator.headD ⟨0, 0, false⟩).id =
        cfg.unkTokenId then
    some ((resetOutputAppendUnknownToken cfg m wordOffset inputWord.length
      orig out).1, curOffset)
  else
    some (cfg.precomputedResultForSuffixIndicator.foldl
      (fun (acc : Outputs × Nat) t =>
        appendTokenToOutput cfg m inputWord wordOffset acc.2 t acc.1)
      (out, curOffset))

/-- Result of the trailing failure-link loop of
`HandleTheRemainingStringOnTriePath`. -/
inductive HRes where
  | success (node : Nat) (out : Outputs) (curOffset : Nat)
  | failUnk (out : Outputs) (curOffset : Nat)
  | nofuel
  deriving DecidableEq, Repr

/-- The loop `while (node != trie_suffix_root && node !=
trie_punct_failure_link_node)` of `HandleTheRemainingStringOnTriePath`. -/
def hrLoop (cfg : Config) (m : Mode) (inputWord : List Nat)
    (wordOffset : Int) : Nat → Nat → Outputs → Nat → HRes
  | 0, _, _, _ => .nofuel
  | fuel + 1, node, out, curOffset =>
    if node = cfg.trieSuffixRoot ∨ node = cfg.triePunctFailureLinkNode then
      .success node out curOffset
    else
      match tryFollowFailureLinkAndCollectTokens cfg m inputWord wordOffset
          curOffset node out with
      | none => .failUnk out curOffset
      | some (node', out', curOffset') =>
        hrLoop cfg m inputWord wordOffset fuel node' out' curOffset'

/-- `FastWordpieceTokenizer::HandleTheRemainingStringOnTriePath`.  Returns
`some (out', orig', curOffset')` mirroring the by-reference updates of the
output containers, `original_num_tokens` and `cur_offset_in_input_word`;
`none` on fuel exhaustion. -/
def handleTheRemainingStringOnTriePath (cfg : Config) (m : Mode)
    (inputWord : List Nat) (wordOffset : Int) (fuel node orig curOffset : Nat)
    (out : Outputs) : Option (Outputs × Nat × Nat) :=
  if node = cfg.trieRootId then some (out, orig, curOffset)
  else
    match tryHandleTheInputWordBeingSuffixIndicatorItself cfg m inputWord
        wordOffset node curOffset orig out with
    | some (out', curOffset') => some (out', currentSize m out', curOffset')
    | none =>
      match hrLoop cfg m inputWord wordOffset fuel node out curOffset with
      | .success _ out' curOffset' => some (out', currentSize m out', curOffset')
      | .failUnk out' curOffset' =>
        let r := resetOutputAppendUnknownToken cfg m wordOffset
          inputWord.length orig out'
        some (r.1, r.2, curOffset')
      | .nofuel => none

/-- Result of the byte loop of `TokenizeSingleWordImpl`. -/
inductive SWRes where
  | done (node : Nat) (out : Outputs) (curOffset : Nat)
  | unk (out : Outputs) (curOffset : Nat)
  | nofuel
  deriving DecidableEq, Repr

/-- The `for (auto ch : input_word)` loop of `TokenizeSingleWordImpl`. -/
def swLoop (cfg : Config) (m : Mode) (inputWord : List Nat) (wordOffset : Int)
    (fuel : Nat) : List Nat → Nat → Outputs → Nat → SWRes
  | [], node, out, curOffset => .done node out curOffset
  | b :: rest, node, out, curOffset =>
    match matchLoop cfg m inputWord wordOffset [b] fuel node out curOffset with
    | .ok node' out' curOffset' =>
      swLoop cfg m inputWord wordOffset fuel rest node' out' curOffset'
    | .fail _ out' curOffset' => .unk out' curOffset'
    | .nofuel => .nofuel

/-- `FastWordpieceTokenizer::TokenizeSingleWordImpl`. -/
def tokenizeSingleWordImpl (cfg : Config) (m : Mode) (inputWord : List Nat)
    (wordOffset : Int) (fuel : Nat) (out : Outputs) : Option Outputs :=
  if inputWord.isEmpty then some out
  else
    let orig := currentSize m out
    if inputWord.length > cfg.maxBytesPerToken then
      some (resetOutputAppendUnknownToken cfg m wordOffset inputWord.length
        orig out).1
    else
      match swLoop cfg m inputWord wordOffset fuel inputWord cfg.trieRootId
          out 0 with
      | .done node out' curOffset =>
        match handleTheRemainingStringOnTriePath cfg m inputWord wordOffset
            fuel node orig curOffset out' with
        | some (out'', _, _) => some out''
        | none => none
      | .unk out' _ =>
        some (resetOutputAppendUnknownToken cfg m wordOffset inputWord.length
          orig out').1
      | .nofuel => none

/-- Modelled from the spec (§4.1): the UTF-8 scanner (ICU's `U8_NEXT`, not in
the sources).  Returns `(codepoint, next byte offset)`; on malformed bytes it
produces the placeholder 0xFFFD and advances by one byte; it never reads past
the end of the buffer and always advances. -/
def u8Next (buf : List Nat) (i : Nat) : Nat × Nat :=
  let b0 := buf.getD i 0
  let cont := fun b => 0x80 ≤ b ∧ b ≤ 0xBF
  if b0 < 0x80 then (b0, i + 1)
  else
    let b1 := buf.getD (i + 1) 0
    if 0xC2 ≤ b0 ∧ b0 ≤ 0xDF ∧ i + 1 < buf.length ∧ cont b1 then
      ((b0 - 0xC0) * 0x40 + (b1 - 0x80), i + 2)
    else
      let b2 := buf.getD (i + 2) 0
      if 0xE0 ≤ b0 ∧ b0 ≤ 0xEF ∧ i + 2 < buf.length ∧ cont b1 ∧ cont b2 then
        ((b0 - 0xE0) * 0x1000 + (b1 - 0x80) * 0x40 + (b2 - 0x80), i + 3)
      else
        let b3 := buf.getD (i + 3) 0
        if 0xF0 ≤ b0 ∧ b0 ≤ 0xF4 ∧ i + 3 < buf.length ∧ cont b1 ∧ cont b2 ∧
            cont b3 then
          ((b0 - 0xF0) * 0x40000 + (b1 - 0x80) * 0x1000 +
            (b2 - 0x80) * 0x40 + (b3 - 0x80), i + 4)
        else (0xFFFD, i + 1)

/-- `FastWordpieceTokenizer::SkipTheRemainingOfWordAndTrailingWhiteSpaces`.
Returns `(end_of_word, cur_pos)`; `endOfWord` is the accumulator initialised
by the caller to the entry `cur_pos`. -/
def skipTheRemainingOfWordAndTrailingWhiteSpaces (cfg : Config)
    (input : List Nat) (endOfWord curPos : Nat) : Nat × Nat :=
  if _h : curPos < input.length then
    let d := u8Next input curPos
    if cfg.isWhitespace d.1 then (endOfWord, d.2)
    else if cfg.isPunct d.1 then (endOfWord, curPos)
    else skipTheRemainingOfWordAndTrailingWhiteSpaces cfg input d.2 d.2
  else (endOfWord, curPos)
termination_by input.length - curPos
decreasing_by
  have h : curPos < (u8Next input curPos).2 := by
    unfold u8Next
    dsimp only
    split
    · omega
    · split
      · omega
      · split
        · omega
        · split <;> omega
  omega

/-- Exit state of the inner trie-matching loop of `TokenizeTextImpl`:
either the loop condition `cur_pos < input_size` failed (`endOfText`), or the
loop stopped at a character (length-limit break, or a null failure link) and
control reaches the word-boundary test with the recorded
`(cur_pos, next_pos, prev, cur)` values. -/
inductive InnerRes where
  | endOfText (node : Nat) (out : Outputs) (curOffset : Nat) (cur : Nat)
  | boundary (curPos nextPos prev cur node : Nat) (out : Outputs)
      (curOffset : Nat)
  | nofuel
  deriving DecidableEq, Repr

/-- The inner trie-matching loop of `TokenizeTextImpl` (lines 213-245 of the
source): decode one codepoint, stop on the length limit, otherwise follow
failure links until the trie consumes the character, then advance. -/
def e2eInner (cfg : Config) (m : Mode) (text : List Nat) (wordStart : Nat) :
    Nat → Nat → Nat → Nat → Outputs → Nat → Nat → InnerRes
  | 0, _, _, _, _, _, _ => .nofuel
  | fuel + 1, curPos, cur, node, out, curOffset, wordLen =>
    if curPos < text.length then
      let prev := cur
      let d := u8Next text curPos
      if wordLen + (d.2 - curPos) > cfg.maxBytesPerToken then
        .boundary curPos d.2 prev d.1 node out curOffset
      else
        match matchLoop cfg m (text.drop wordStart) (wordStart : Int)
            ((text.drop curPos).take (d.2 - curPos)) fuel node out
            curOffset with
        | .ok node' out' curOffset' =>
          e2eInner cfg m text wordStart fuel d.2 d.1 node' out' curOffset'
            (wordLen + (d.2 - curPos))
        | .fail node' out' curOffset' =>
          .boundary curPos d.2 prev d.1 node' out' curOffset'
        | .nofuel => .nofuel
    else .endOfText node out curOffset cur

/-- The live state between two iterations of the outer word loop of
`TokenizeTextImpl`: the scan position, the last decoded codepoint (which
seeds `prev` for the next word) and the outputs with the rollback marker
`original_num_tokens`. -/
structure E2EState where
  curPos : Nat
  cur : Nat
  out : Outputs
  orig : Nat
  deriving DecidableEq, Repr

/-- Result of one iteration of the outer word loop of `TokenizeTextImpl`. -/
inductive StepRes where
  | done (out : Outputs)
  | next (s : E2EState)
  | nofuel
  deriving DecidableEq, Repr

/-- One iteration of the outer word loop of `TokenizeTextImpl` (requires
`s.curPos < text.length`): run the inner matching loop and then either flush
the word at the end of the text, flush at a detected word boundary, or reset
and emit an unknown token for an untokenizable word. -/
def e2eStep (cfg : Config) (m : Mode) (text : List Nat) (fuel : Nat)
    (s : E2EState) : StepRes :=
  let wordStart := s.curPos
  match e2eInner cfg m text wordStart fuel s.curPos s.cur cfg.trieRootId
      s.out 0 0 with
  | .endOfText node out curOffset _cur =>
    match handleTheRemainingStringOnTriePath cfg m (text.drop wordStart)
        (wordStart : Int) fuel node s.orig curOffset out with
    | some (out', _, _) => .done out'
    | none => .nofuel
  | .boundary curPos nextPos prev cur node out curOffset =>
    let ws := cfg.isWhitespace cur
    if ws || cfg.isPunct cur || (decide (curPos ≠ 0) && cfg.isPunct prev) then
      match handleTheRemainingStringOnTriePath cfg m
          ((text.drop wordStart).take (curPos - wordStart)) (wordStart : Int)
          fuel node s.orig curOffset out with
      | some (out', orig', _) =>
        .next ⟨if ws then nextPos else curPos, cur, out', orig'⟩
      | none => .nofuel
    else
      let sk := skipTheRemainingOfWordAndTrailingWhiteSpaces cfg text nextPos
        nextPos
      let r := resetOutputAppendUnknownToken cfg m (wordStart : Int)
        (sk.1 - wordStart) s.orig out
      .next ⟨sk.2, cur, r.1, r.2⟩
  | .nofuel => .nofuel

/-- The outer word loop of `TokenizeTextImpl`. -/
def e2eLoop (cfg : Config) (m : Mode) (text : List Nat) :
    Nat → E2EState → Option Outputs
  | 0, _ => none
  | fuel + 1, s =>
    if s.curPos < text.length then
      match e2eStep cfg m text fuel s with
      | .done out => some out
      | .next s' => e2eLoop cfg m text fuel s'
      | .nofuel => none
    else some s.out

/-- `FastWordpieceTokenizer::TokenizeTextImpl`.  Note that it takes no
`input_word_offset_in_text`: offsets are computed from positions within
`text` itself. -/
def tokenizeTextImpl (cfg : Config) (m : Mode) (text : List Nat)
    (fuel : Nat) (out : Outputs) : Option Outputs :=
  if text.isEmpty then some out
  else e2eLoop cfg m text fuel ⟨0, 0, out, currentSize m out⟩

/-- `FastWordpieceTokenizer::Tokenize` (pieces + ids + offsets overload):
dispatches on `config_->end_to_end()`; the word offset argument is passed
only to the single-word implementation. -/
def tokenizeFull (cfg : Config) (input : List Nat) (wordOffset : Int)
    (fuel : Nat) (out : Outputs) : Option Outputs :=
  if cfg.endToEnd then tokenizeTextImpl cfg ModeFull input fuel out
  else tokenizeSingleWordImpl cfg ModeFull input wordOffset fuel out

/-- `FastWordpieceTokenizer::Tokenize` (ids + offsets overload). -/
def tokenizeIdsOffsets (cfg : Config) (input : List Nat) (wordOffset : Int)
    (fuel : Nat) (out : Outputs) : Option Outputs :=
  if cfg.endToEnd then tokenizeTextImpl cfg ModeIdsOffsets input fuel out
  else tokenizeSingleWordImpl cfg ModeIdsOffsets input wordOffset fuel out

/-- `FastWordpieceTokenizer::Tokenize` (ids only overload). -/
def tokenizeIdsOnly (cfg : Config) (input : List Nat) (wordOffset : Int)
    (fuel : Nat) (out : Outputs) : Option Outputs :=
  if cfg.endToEnd then tokenizeTextImpl cfg ModeIdsOnly input fuel out
  else tokenizeSingleWordImpl cfg ModeIdsOnly input wordOffset fuel out

/-- The single error kind of the detokenizer
(`absl::FailedPreconditionError`). -/
inductive DetokErr where
  | precondition
  deriving DecidableEq, Repr

/-- The body of the `for (int id : input)` loop of `DetokenizeToTokens`,
acting on the pair (completed output words, pending `subwords`). -/
def detokStep (cfg : Config) (st : List (List Nat) × List (List Nat))
    (id : Nat) : List (List Nat) × List (List Nat) :=
  let vocab := cfg.vocabArr.getD id []
  let isSfx := cfg.vocabIsSuffixArr.getD id false
  let st := if ¬st.2.isEmpty ∧ ¬isSfx then (st.1 ++ [st.2.flatten], []) else st
  let subwords := if st.2.isEmpty ∧ isSfx then [cfg.suffixIndicator] else st.2
  (st.1, subwords ++ [vocab])

/-- `FastWordpieceTokenizer::DetokenizeToTokens`. -/
def detokenizeToTokens (cfg : Config) (input : List Nat) :
    Except DetokErr (List (List Nat)) :=
  if ¬cfg.supportDetokenization then .error .precondition
  else
    let st := input.foldl (detokStep cfg) ([], [])
    .ok (if ¬st.2.isEmpty then st.1 ++ [st.2.flatten] else st.1)

/-- `FastWordpieceTokenizer::Detokenize`: join the words with a single
space (byte 32). -/
def detokenize (cfg : Config) (input : List Nat) :
    Except DetokErr (List Nat) :=
  (detokenizeToTokens cfg input).map (fun ws => (List.intersperse [32] ws).flatten)

/-!  A concrete model instance, built from the worked example in the source
comments (vocabulary `{a, abcd, ##b, ##bc, ##z, [UNK]}`, suffix indicator
`##`, trie nodes 0-9 with the failure links and failure pops of the table in
`TokenizeSingleWordImpl`).  `cfgSW` is the single-word variant; `cfgE2E`
additionally contains the dummy punctuation node for `!` and enables
end-to-end mode. -/

def cfgSW : Config := {
  vocabArr := [[97], [97, 98, 99, 100], [98], [98, 99], [122],
    [91, 85, 78, 75, 93]]
  vocabIsSuffixArr := [false, false, true, true, true, false]
  suffixIndicator := [35, 35]
  unkToken := [91, 85, 78, 75, 93]
  unkTokenId := 5
  maxBytesPerToken := 100
  endToEnd := false
  supportDetokenization := true
  trieRootId := 0
  nullNode := 999
  trieEdges := [((0, 97), 3), ((0, 35), 1), ((1, 35), 2), ((3, 98), 4),
    ((4, 99), 5), ((5, 100), 6), ((2, 98), 7), ((7, 99), 8), ((2, 122), 9)]
  trieDataArr := [(3, ⟨0, 1, false⟩), (6, ⟨1, 4, false⟩), (7, ⟨2, 1, true⟩),
    (8, ⟨3, 2, true⟩), (9, ⟨4, 1, true⟩)]
  failureStructArr := [(3, ⟨2, 0, 1⟩), (4, ⟨7, 0, 1⟩), (5, ⟨8, 0, 1⟩),
    (6, ⟨2, 1, 1⟩), (7, ⟨2, 2, 1⟩), (8, ⟨2, 3, 1⟩), (9, ⟨2, 4, 1⟩)]
  failurePopsPool := [⟨0, 1, false⟩, ⟨1, 4, false⟩, ⟨2, 1, true⟩,
    ⟨3, 2, true⟩, ⟨4, 1, true⟩]
  precomputedResultForSuffixIndicator := [⟨5, 2, false⟩]
  trieSuffixRoot := 2
  triePunctFailureLinkNode := 999
  isWhitespace := fun c => c = 32
  isPunct := fun c => c = 33 }

def cfgE2E : Config := { cfgSW with
  endToEnd := true
  trieEdges := cfgSW.trieEdges ++ [((0, 33), 10)]
  trieDataArr := cfgSW.trieDataArr ++ [(10, ⟨5, 1, false⟩)]
  failureStructArr := cfgSW.failureStructArr ++ [(10, ⟨11, 0, 0⟩)]
  triePunctFailureLinkNode := 11 }

/-- The string spelled by the trie path to each node of `cfgSW`, following
the node table of the source comment (root, `#`, `##`, `a`, `ab`, `abc`,
`abcd`, `##b`, `##bc`, `##z`). -/
def strW : Nat → List Nat
  | 0 => []
  | 1 => [35]
  | 2 => [35, 35]
  | 3 => [97]
  | 4 => [97, 98]
  | 5 => [97, 98, 99]
  | 6 => [97, 98, 99, 100]
  | 7 => [35, 35, 98]
  | 8 => [35, 35, 98, 99]
  | 9 => [35, 35, 122]
  | _ => []

/-- The first `n` entries of every output container agree (used to state that
already-flushed words form a stable prefix). -/
def TakeNEq (n : Nat) (o o' : Outputs) : Prop :=
  o'.pieces.take n = o.pieces.take n ∧ o'.ids.take n = o.ids.take n ∧
  o'.starts.take n = o.starts.take n ∧ o'.ends.take n = o.ends.take n

/-- The rollback marker is within bounds of every active container. -/
def OutOk (m : Mode) (n : Nat) (o : Outputs) : Prop :=
  (m.getPieces = true → n ≤ o.pieces.length) ∧
  (m.getIds = true → n ≤ o.ids.length) ∧
  (m.getOffsets = true → n ≤ o.starts.length ∧ n ≤ o.ends.length)

/-- All active containers have the same length `currentSize`. -/
def Sync (m : Mode) (o : Outputs) : Prop :=
  (m.getPieces = true → o.pieces.length = currentSize m o) ∧
  (m.getIds = true → o.ids.length = currentSize m o) ∧
  (m.getOffsets = true → o.starts.length = currentSize m o ∧
    o.ends.length = currentSize m o)

/-- `o'` extends `o` by appending `k` entries to every active container and
leaving inactive containers untouched. -/
def Grows (m : Mode) (o o' : Outputs) : Prop :=
  ∃ k ep ei es ee,
    o'.pieces = o.pieces ++ ep ∧
    ep.length = (if m.getPieces = true then k else 0) ∧
    o'.ids = o.ids ++ ei ∧
    ei.length = (if m.getIds = true then k else 0) ∧
    o'.starts = o.starts ++ es ∧
    es.length = (if m.getOffsets = true then k else 0) ∧
    o'.ends = o.ends ++ ee ∧
    ee.length = (if m.getOffsets = true then k else 0)

/-- The word-boundary condition exactly as the code tests it
(`is_white_space || IsPunctuationOrChineseChar(cur) || (cur_pos &&
IsPunctuationOrChineseChar(prev))`). -/
def boundaryCode (cfg : Config) (curPos prev cp : Nat) : Bool :=
  cfg.isWhitespace cp || cfg.isPunct cp ||
    (decide (curPos ≠ 0) && cfg.isPunct prev)

/-- The word-boundary condition as the specification states it
(`is_whitespace(cp) OR is_punct_or_cjk(cp) OR (prev != 0 and
is_punct_or_cjk(prev))`). -/
def boundarySpec (cfg : Config) (prev cp : Nat) : Bool :=
  cfg.isWhitespace cp || cfg.isPunct cp ||
    (decide (prev ≠ 0) && cfg.isPunct prev)

/-- Reachability invariant of the outer loop of `TokenizeTextImpl`: while
the scan is still at position 0, the carried-over `cur_unicode_char` is
either its initial value 0 or the codepoint decoded at position 0. -/
def Inv3 (text : List Nat) (s : E2EState) : Prop :=
  s.curPos = 0 → (s.cur = 0 ∨ s.cur = (u8Next text 0).1)

/-- Model-validity facts about one encoded token (spec §3): its stored vocab
entry has exactly `token_byte_length` bytes, the length is positive, and the
`is_suffix` flag of the vocab arrays agrees with the encoded bit. -/
def TokOK (cfg : Config) (t : EncodedToken) : Prop :=
  (cfg.vocabArr.getD t.id []).length = t.length ∧ 1 ≤ t.length ∧
  cfg.vocabIsSuffixArr.getD t.id false = t.isSuffix

/-- Model-validity facts about a trie node carrying a vocab entry (spec §3
and §4.6 step 1): the node's string is the token's surface (with the suffix
indicator for suffix tokens), and its failure link is `trie_suffix_root`. -/
def DataOK (cfg : Config) (str : Nat → List Nat) (n : Nat)
    (t : EncodedToken) : Prop :=
  TokOK cfg t ∧
  (failureStructAt cfg n).failureLink = cfg.trieSuffixRoot ∧
  ((str n).take cfg.suffixIndicator.length = cfg.suffixIndicator →
    t.isSuffix = true) ∧
  str n = (if t.isSuffix then cfg.suffixIndicator else []) ++
    cfg.vocabArr.getD t.id []

/-- Model-validity facts about a failure transition (spec §3 invariants):
the failure pops cover exactly the prefix of the node's string consumed by
the transition, and the failure link's string is the suffix indicator
followed by the uncovered remainder. -/
def PopsOK (cfg : Config) (str : Nat → List Nat) (n : Nat)
    (fs : FailureStruct) : Prop :=
  popsSlice cfg fs ≠ [] ∧
  (∀ t ∈ popsSlice cfg fs, TokOK cfg t) ∧
  (∀ t ∈ (popsSlice cfg fs).tail, t.isSuffix = true) ∧
  ((str n).take cfg.suffixIndicator.length = cfg.suffixIndicator →
    ((popsSlice cfg fs).headD ⟨0, 0, false⟩).isSuffix = true) ∧
  str (fs.failureLink) = cfg.suffixIndicator ++
    (str (fs.failureLink)).drop cfg.suffixIndicator.length ∧
  str n = (if ((popsSlice cfg fs).headD ⟨0, 0, false⟩).isSuffix then
      cfg.suffixIndicator else []) ++
    ((popsSlice cfg fs).map (fun t => cfg.vocabArr.getD t.id [])).flatten ++
    (str (fs.failureLink)).drop cfg.suffixIndicator.length

/-- The model-validity assumptions for the detokenization round trip, with
`str` the string spelled by the trie path to each node: the builder
invariants of spec §3, plus (for this restricted setting) a punctuation
sentinel node that is never reachable and a precomputed suffix-indicator
result that detokenizes back to the suffix indicator. -/
def RoundTripOK (cfg : Config) (str : Nat → List Nat) : Prop :=
  cfg.suffixIndicator ≠ [] ∧
  str cfg.trieRootId = [] ∧
  str cfg.trieSuffixRoot = cfg.suffixIndicator ∧
  cfg.triePunctFailureLinkNode = cfg.nullNode ∧
  cfg.trieRootId ≠ cfg.nullNode ∧
  (∀ e ∈ cfg.trieEdges, str e.2 = str e.1.1 ++ [e.1.2] ∧
    e.2 ≠ cfg.nullNode) ∧
  (∀ d ∈ cfg.trieDataArr, DataOK cfg str d.1 d.2) ∧
  (∀ pr ∈ cfg.failureStructArr, trieData cfg pr.1 = none →
    pr.2.failureLink ≠ cfg.nullNode → PopsOK cfg str pr.1 pr.2) ∧
  (¬(cfg.precomputedResultForSuffixIndicator.length = 1 ∧
      (cfg.precomputedResultForSuffixIndicator.headD ⟨0, 0, false⟩).id =
        cfg.unkTokenId) →
    ((cfg.precomputedResultForSuffixIndicator.map (fun t => t.id)).foldl
        (detokStep cfg) ([], [])).1 = [] ∧
    ((cfg.precomputedResultForSuffixIndicator.map (fun t => t.id)).foldl
        (detokStep cfg) ([], [])).2 ≠ [] ∧
    (((cfg.precomputedResultForSuffixIndicator.map (fun t => t.id)).foldl
        (detokStep cfg) ([], [])).2).flatten = cfg.suffixIndicator)

/-- The accumulated detokenizer state of the ids emitted so far: no word has
been completed, and the pending subwords concatenate to the first `c` bytes
of the word. -/
def DState (cfg : Config) (w : List Nat) (ids : List Nat) (c : Nat) : Prop :=
  (ids.foldl (detokStep cfg) ([], [])).1 = [] ∧
  (ids.foldl (detokStep cfg) ([], [])).2 ≠ [] ∧
  ((ids.foldl (detokStep cfg) ([], [])).2).flatten = w.take c

/-- The run invariant of the single-word tokenizer (full-output mode,
starting from empty outputs) after feeding the first `p` bytes of `w`:
either nothing has been emitted and the cursor's string is the consumed
prefix, or tokens covering `w[0..c)` have been emitted and the cursor's
string is the suffix indicator followed by `w[c..p)`. -/
def SWInv (cfg : Config) (str : Nat → List Nat) (w : List Nat) (p node : Nat)
    (out : Outputs) (c : Nat) : Prop :=
  c ≤ p ∧ p ≤ w.length ∧
  (node ≠ cfg.nullNode ∨ node = cfg.trieSuffixRoot) ∧
  out.pieces.length = out.ids.length ∧
  ((c = 0 ∧ out.ids = [] ∧ str node = w.take p) ∨
   (1 ≤ c ∧ out.ids ≠ [] ∧
    str node = cfg.suffixIndicator ++ (w.drop c).take (p - c) ∧
    DState cfg w out.ids c))

/-- Claim C1: `TryFollowFailureLinkAndCollectTokens` behaves as follows.  If
the current node carries a vocab entry `v`, it emits `v`, moves the cursor to
the node's failure link and returns true.  Otherwise, if the node's failure
link is `kNullNode`, it returns false leaving the outputs unchanged (the
`none` result: the caller keeps its outputs and cursor).  Otherwise it emits
each encoded token of `failure_pops_pool[offset .. offset+length)` in pool
order and moves the cursor to the failure link, returning true. -/
theorem claim_c1 (cfg : Config) (m : Mode) (w : List Nat) (w0 : Int)
    (c node : Nat) (out : Outputs) :
    (∀ v, trieData cfg node = some v →
      tryFollowFailureLinkAndCollectTokens cfg m w w0 c node out =
        some ((failureStructAt cfg node).failureLink,
          appendTokenToOutput cfg m w w0 c v out)) ∧
    (trieData cfg node = none →
      (failureStructAt cfg node).failureLink = cfg.nullNode →
      tryFollowFailureLinkAndCollectTokens cfg m w w0 c node out = none) ∧
    (trieData cfg node = none →
      (failureStructAt cfg node).failureLink ≠ cfg.nullNode →
      tryFollowFailureLinkAndCollectTokens cfg m w w0 c node out =
        some ((failureStructAt cfg node).failureLink,
          (popsSlice cfg (failureStructAt cfg node)).foldl
            (fun acc t => appendTokenToOutput cfg m w w0 acc.2 t acc.1)
            (out, c))) := by
  refine ⟨?_, ?_, ?_⟩
  · intro v hv
    simp only [tryFollowFailureLinkAndCollectTokens, hv]
  · intro hd hl
    simp only [tryFollowFailureLinkAndCollectTokens, hd, if_pos hl]
  · intro hd hl
    simp only [tryFollowFailureLinkAndCollectTokens, hd, if_neg hl]

/-- Witness for C1 at the concrete model: node 4 (string "ab") has no data
and a non-null failure link, so the failure transition pops `a` and moves to
node 7. -/
theorem claim_c1_witness :
    trieData cfgSW 4 = none ∧
    (failureStructAt cfgSW 4).failureLink ≠ cfgSW.nullNode ∧
    tryFollowFailureLinkAndCollectTokens cfgSW ModeFull [97, 98] 0 0 4
      emptyOutputs = some (7, ⟨[[97]], [0], [0], [1]⟩, 1) := by
  refine ⟨by decide, by decide, ?_⟩
  have h := (claim_c1 cfgSW ModeFull [97, 98] 0 0 4 emptyOutputs).2.2
    (by decide) (by decide)
  rw [h]
  decide

/-- Characterization of `ResetOutputAppendUnknownToken`: each active
container is rolled back to `orig` entries and exactly one unknown token is
appended; inactive containers are untouched. -/
theorem reset_spec (cfg : Config) (m : Mode) (w0 : Int) (sz orig : Nat)
    (out : Outputs)
    (hp : m.getPieces = true → orig ≤ out.pieces.length)
    (hi : m.getIds = true → orig ≤ out.ids.length)
    (hs : m.getOffsets = true → orig ≤ out.starts.length)
    (he : m.getOffsets = true → orig ≤ out.ends.length) :
    (m.getPieces = true →
      (resetOutputAppendUnknownToken cfg m w0 sz orig out).1.pieces =
        out.pieces.take orig ++ [cfg.unkToken]) ∧
    (m.getPieces = false →
      (resetOutputAppendUnknownToken cfg m w0 sz orig out).1.pieces =
        out.pieces) ∧
    (m.getIds = true →
      (resetOutputAppendUnknownToken cfg m w0 sz orig out).1.ids =
        out.ids.take orig ++ [cfg.unkTokenId]) ∧
    (m.getIds = false →
      (resetOutputAppendUnknownToken cfg m w0 sz orig out).1.ids = out.ids) ∧
    (m.getOffsets = true →
      (resetOutputAppendUnknownToken cfg m w0 sz orig out).1.starts =
        out.starts.take orig ++ [w0] ∧
      (resetOutputAppendUnknownToken cfg m w0 sz orig out).1.ends =
        out.ends.take orig ++ [w0 + (sz : Int)]) ∧
    (m.getOffsets = false →
      (resetOutputAppendUnknownToken cfg m w0 sz orig out).1.starts =
        out.starts ∧
      (resetOutputAppendUnknownToken cfg m w0 sz orig out).1.ends =
        out.ends) ∧
    (resetOutputAppendUnknownToken cfg m w0 sz orig out).2 = orig + 1 := by
  cases hP : m.getPieces <;> cases hI : m.getIds <;> cases hO : m.getOffsets <;>
    simp_all [resetOutputAppendUnknownToken, listResize,
      Nat.sub_eq_zero_of_le]

/-- Claim C2: when a word triggers the unknown-token policy the outputs are
first rolled back to their size before the word began and then exactly one
token is appended, with id `unk_token_id`, piece `unk_token`, and offsets
spanning the entire word; in particular a single-word input longer than
`max_bytes_per_token` yields exactly one unknown token covering
`[word_offset, word_offset + |word|)`. -/
theorem claim_c2 :
    (∀ (cfg : Config) (m : Mode) (w0 : Int) (sz orig : Nat) (out : Outputs),
      (m.getPieces = true → orig ≤ out.pieces.length) →
      (m.getIds = true → orig ≤ out.ids.length) →
      (m.getOffsets = true → orig ≤ out.starts.length) →
      (m.getOffsets = true → orig ≤ out.ends.length) →
      (m.getPieces = true →
        (resetOutputAppendUnknownToken cfg m w0 sz orig out).1.pieces =
          out.pieces.take orig ++ [cfg.unkToken]) ∧
      (m.getIds = true →
        (resetOutputAppendUnknownToken cfg m w0 sz orig out).1.ids =
          out.ids.take orig ++ [cfg.unkTokenId]) ∧
      (m.getOffsets = true →
        (resetOutputAppendUnknownToken cfg m w0 sz orig out).1.starts =
          out.starts.take orig ++ [w0] ∧
        (resetOutputAppendUnknownToken cfg m w0 sz orig out).1.ends =
          out.ends.take orig ++ [w0 + (sz : Int)])) ∧
    (∀ (cfg : Config) (m : Mode) (w : List Nat) (w0 : Int) (fuel : Nat)
      (out : Outputs),
      w.length > cfg.maxBytesPerToken →
      tokenizeSingleWordImpl cfg m w w0 fuel out =
        some (resetOutputAppendUnknownToken cfg m w0 w.length
          (currentSize m out) out).1) := by
  constructor
  · intro cfg m w0 sz orig out hp hi hs he
    have h := reset_spec cfg m w0 sz orig out hp hi hs he
    exact ⟨h.1, h.2.2.1, h.2.2.2.2.1⟩
  · intro cfg m w w0 fuel out h
    have hne : ¬(w.isEmpty = true) := by
      cases w with
      | nil => simp at h
      | cons a l => simp
    simp only [tokenizeSingleWordImpl, if_neg hne, if_pos h]

/-- Witness for C2: a 4-byte word with `max_bytes_per_token = 2` maps to a
single unknown token spanning `[3, 7)`, appended after rolling the
(non-empty) outputs back to their original single entry. -/
theorem claim_c2_witness :
    tokenizeSingleWordImpl { cfgSW with maxBytesPerToken := 2 } ModeFull
        [97, 98, 99, 122] 3 50 ⟨[[97]], [0], [0], [1]⟩ =
      some ⟨[[97], [91, 85, 78, 75, 93]], [0, 5], [0, 3], [1, 7]⟩ := by
  have h2 := claim_c2.2 { cfgSW with maxBytesPerToken := 2 } ModeFull
    [97, 98, 99, 122] 3 50 ⟨[[97]], [0], [0], [1]⟩ (by decide)
  have h1 := claim_c2.1 { cfgSW with maxBytesPerToken := 2 } ModeFull 3 4 1
    ⟨[[97]], [0], [0], [1]⟩ (by decide) (by decide) (by decide) (by decide)
  rw [h2]
  decide

/-- Claim C5: when the trie traversal for a word ends at `trie_suffix_root`
with no tokens yet emitted for that word (output size still equals
`original_num_tokens`), `TryHandleTheInputWordBeingSuffixIndicatorItself`
applies: if `precomputed_result_for_suffix_indicator` has length 1 and that
entry's token id equals `unk_token_id`, the output is reset and exactly one
unknown token spanning the word is emitted; otherwise every encoded token of
`precomputed_result_for_suffix_indicator` is emitted in order. -/
theorem claim_c5 (cfg : Config) (m : Mode) (w : List Nat) (w0 : Int)
    (node c orig : Nat) (out : Outputs)
    (h1 : node = cfg.trieSuffixRoot) (h2 : currentSize m out = orig) :
    (cfg.precomputedResultForSuffixIndicator.length = 1 ∧
      (cfg.precomputedResultForSuffixIndicator.headD ⟨0, 0, false⟩).id =
        cfg.unkTokenId →
      tryHandleTheInputWordBeingSuffixIndicatorItself cfg m w w0 node c orig
        out =
        some ((resetOutputAppendUnknownToken cfg m w0 w.length orig out).1,
          c)) ∧
    (¬(cfg.precomputedResultForSuffixIndicator.length = 1 ∧
      (cfg.precomputedResultForSuffixIndicator.headD ⟨0, 0, false⟩).id =
        cfg.unkTokenId) →
      tryHandleTheInputWordBeingSuffixIndicatorItself cfg m w w0 node c orig
        out =
        some (cfg.precomputedResultForSuffixIndicator.foldl
          (fun acc t => appendTokenToOutput cfg m w w0 acc.2 t acc.1)
          (out, c))) := by
  constructor
  · intro hpre
    simp only [tryHandleTheInputWordBeingSuffixIndicatorItself, h1, h2,
      if_pos hpre, ne_eq, not_true_eq_false, if_neg, ite_false]
  · intro hpre
    simp only [tryHandleTheInputWordBeingSuffixIndicatorItself, h1, h2,
      if_neg hpre, ne_eq, not_true_eq_false, ite_false]

/-- Witness for C5 at the concrete model: the word `##` reaches node 2 (the
suffix root) with nothing emitted, and the precomputed result is a single
unknown entry, so one unknown token spanning `[0, 2)` is emitted. -/
theorem claim_c5_witness :
    tryHandleTheInputWordBeingSuffixIndicatorItself cfgSW ModeFull [35, 35] 0
      2 0 0 emptyOutputs =
      some (⟨[[91, 85, 78, 75, 93]], [5], [0], [2]⟩, 0) := by
  have h := (claim_c5 cfgSW ModeFull [35, 35] 0 2 0 0 emptyOutputs rfl
    rfl).1 (by decide)
  rw [h]
  decide

/-- Claim C6: `DetokenizeToTokens` groups ids into words: a non-suffix token
with a non-empty pending subword list flushes the concatenation of the
pending subwords as a completed word; a suffix token arriving with an empty
pending list first pushes the suffix indicator (preserving a leading `##`);
each `vocab[id]` is appended to the pending list; the pending list is
flushed at the end; and `Detokenize` joins the resulting words with a single
space. -/
theorem claim_c6 :
    (∀ (cfg : Config) (toks subs : List (List Nat)) (id : Nat), subs ≠ [] →
      cfg.vocabIsSuffixArr.getD id false = false →
      detokStep cfg (toks, subs) id =
        (toks ++ [subs.flatten], [cfg.vocabArr.getD id []])) ∧
    (∀ (cfg : Config) (toks subs : List (List Nat)) (id : Nat), subs ≠ [] →
      cfg.vocabIsSuffixArr.getD id false = true →
      detokStep cfg (toks, subs) id =
        (toks, subs ++ [cfg.vocabArr.getD id []])) ∧
    (∀ (cfg : Config) (toks : List (List Nat)) (id : Nat),
      cfg.vocabIsSuffixArr.getD id false = true →
      detokStep cfg (toks, []) id =
        (toks, [cfg.suffixIndicator, cfg.vocabArr.getD id []])) ∧
    (∀ (cfg : Config) (toks : List (List Nat)) (id : Nat),
      cfg.vocabIsSuffixArr.getD id false = false →
      detokStep cfg (toks, []) id = (toks, [cfg.vocabArr.getD id []])) ∧
    (∀ (cfg : Config) (ids : List Nat), cfg.supportDetokenization = true →
      detokenizeToTokens cfg ids = .ok
        (let st := ids.foldl (detokStep cfg) ([], [])
         if ¬st.2.isEmpty then st.1 ++ [st.2.flatten] else st.1)) ∧
    (∀ (cfg : Config) (ids : List Nat) (words : List (List Nat)),
      detokenizeToTokens cfg ids = .ok words →
      detokenize cfg ids = .ok (List.intersperse [32] words).flatten) := by
  refine ⟨?_, ?_, ?_, ?_, ?_, ?_⟩
  · intro cfg toks subs id hne hsfx
    simp_all [detokStep]
  · intro cfg toks subs id hne hsfx
    simp_all [detokStep]
  · intro cfg toks id hsfx
    simp_all [detokStep]
  · intro cfg toks id hsfx
    simp_all [detokStep]
  · intro cfg ids hflag
    simp [detokenizeToTokens, hflag]
  · intro cfg ids words h
    simp [detokenize, h, Except.map]

/-- Witness for C6 at the concrete model (spec scenario 6): detokenizing
`[id(a), id(##bc), id(##z)]` yields the single word `abcz`. -/
theorem claim_c6_witness :
    detokenizeToTokens cfgSW [0, 3, 4] = .ok [[97, 98, 99, 122]] ∧
    detokenize cfgSW [0, 3, 4] = .ok [97, 98, 99, 122] := by
  have h5 := claim_c6.2.2.2.2.1 cfgSW [0, 3, 4] (by decide)
  have h1 : detokenizeToTokens cfgSW [0, 3, 4] = .ok [[97, 98, 99, 122]] := by
    rw [h5]; rfl
  have h6 := claim_c6.2.2.2.2.2 cfgSW [0, 3, 4] [[97, 98, 99, 122]] h1
  exact ⟨h1, h6⟩

/-- Claim C7: `DetokenizeToTokens` (and hence `Detokenize`) returns a
precondition error if and only if `support_detokenization` is false; when it
errors no output words are produced (the result is the bare error value). -/
theorem claim_c7 (cfg : Config) (ids : List Nat) :
    ((detokenizeToTokens cfg ids).isOk = true ↔
      cfg.supportDetokenization = true) ∧
    (cfg.supportDetokenization = false →
      detokenizeToTokens cfg ids = .error .precondition) ∧
    ((detokenize cfg ids).isOk = true ↔ cfg.supportDetokenization = true) ∧
    (cfg.supportDetokenization = false →
      detokenize cfg ids = .error .precondition) := by
  cases hF : cfg.supportDetokenization <;>
    simp [detokenizeToTokens, detokenize, hF, Except.isOk, Except.map,
      Except.toBool]

/-- Witness for C7: on a model without detokenization support the
detokenizer fails with the precondition error. -/
theorem claim_c7_witness :
    detokenizeToTokens { cfgSW with supportDetokenization := false } [0] =
      .error .precondition ∧
    detokenize { cfgSW with supportDetokenization := false } [0] =
      .error .precondition := by
  have h := claim_c7 { cfgSW with supportDetokenization := false } [0]
  exact ⟨h.2.1 rfl, h.2.2.2 rfl⟩

/-- Claim C10: on the empty input every tokenize variant, in every output
mode and in both single-word and end-to-end dispatch, returns immediately
and leaves the caller-supplied output containers exactly as they were. -/
theorem claim_c10 (cfg : Config) (m : Mode) (w0 : Int) (fuel : Nat)
    (out : Outputs) :
    tokenizeFull cfg [] w0 fuel out = some out ∧
    tokenizeIdsOffsets cfg [] w0 fuel out = some out ∧
    tokenizeIdsOnly cfg [] w0 fuel out = some out ∧
    tokenizeSingleWordImpl cfg m [] w0 fuel out = some out ∧
    tokenizeTextImpl cfg m [] fuel out = some out := by
  cases hE : cfg.endToEnd <;>
    simp [tokenizeFull, tokenizeIdsOffsets, tokenizeIdsOnly,
      tokenizeSingleWordImpl, tokenizeTextImpl, hE]

/-- Counterexample to C4 as stated: in end-to-end mode the
`input_word_offset_in_text` argument of `Tokenize` is ignored
(`TokenizeTextImpl` does not receive it).  Tokenizing the text `a` with
`word_offset = 5` emits the token `a`, whose byte offset within the input is
0, with start offset 0 — not `5 + 0` as the claim requires. -/
theorem claim_c4_counterexample :
    tokenizeFull cfgE2E [97] 5 50 emptyOutputs =
      some ⟨[[97]], [0], [0], [1]⟩ ∧ ¬((0 : Int) = 5 + 0) := by
  constructor
  · decide
  · decide

/-- Claim C4, amended: in single-word mode each emitted token's start offset
equals `word_offset` plus the token's byte offset within the word and its
end offset equals that start plus the token's surface byte length
(`AppendTokenToOutput` pushes exactly these values); in end-to-end mode the
`word_offset` argument is ignored, and offsets are byte offsets into the
input text itself. -/
theorem claim_c4_amended :
    (∀ (cfg : Config) (m : Mode) (w : List Nat) (w0 : Int) (c : Nat)
      (t : EncodedToken) (out : Outputs), m.getOffsets = true →
      (appendTokenToOutput cfg m w w0 c t out).1.starts =
        out.starts ++ [w0 + (c : Int)] ∧
      (appendTokenToOutput cfg m w w0 c t out).1.ends =
        out.ends ++ [w0 + (c : Int) +
          ((if c == 0 && t.isSuffix then
              t.length + cfg.suffixIndicator.length
            else t.length : Nat) : Int)]) ∧
    (∀ (cfg : Config) (input : List Nat) (w0 w0' : Int) (fuel : Nat)
      (out : Outputs), cfg.endToEnd = true →
      tokenizeFull cfg input w0 fuel out =
        tokenizeFull cfg input w0' fuel out ∧
      tokenizeIdsOffsets cfg input w0 fuel out =
        tokenizeIdsOffsets cfg input w0' fuel out ∧
      tokenizeIdsOnly cfg input w0 fuel out =
        tokenizeIdsOnly cfg input w0' fuel out) := by
  constructor
  · intro cfg m w w0 c t out hO
    cases hP : m.getPieces <;> cases hI : m.getIds <;>
      simp [appendTokenToOutput, hO, hP, hI]
  · intro cfg input w0 w0' fuel out hE
    simp [tokenizeFull, tokenizeIdsOffsets, tokenizeIdsOnly, hE]

/-- Witness for the amended C4: a suffix token of length 1 emitted at in-word
offset 1 with word offset 7 gets start `7 + 1` and end `7 + 1 + 1`, and an
end-to-end call gives the same result for word offsets 5 and 0. -/
theorem claim_c4_amended_witness :
    (appendTokenToOutput cfgSW ModeFull [97, 98] 7 1 ⟨2, 1, true⟩
      emptyOutputs).1.starts = [8] ∧
    (appendTokenToOutput cfgSW ModeFull [97, 98] 7 1 ⟨2, 1, true⟩
      emptyOutputs).1.ends = [9] ∧
    tokenizeFull cfgE2E [97] 5 50 emptyOutputs =
      tokenizeFull cfgE2E [97] 0 50 emptyOutputs := by
  have h1 := claim_c4_amended.1 cfgSW ModeFull [97, 98] 7 1 ⟨2, 1, true⟩
    emptyOutputs rfl
  have h2 := (claim_c4_amended.2 cfgE2E [97] 5 0 50 emptyOutputs rfl).1
  refine ⟨?_, ?_, h2⟩
  · rw [h1.1]; decide
  · rw [h1.2]; decide

theorem takeNEq_refl (n : Nat) (o : Outputs) : TakeNEq n o o :=
  ⟨rfl, rfl, rfl, rfl⟩

theorem takeNEq_trans {n : Nat} {o o' o'' : Outputs}
    (h : TakeNEq n o o') (h' : TakeNEq n o' o'') : TakeNEq n o o'' :=
  ⟨h'.1.trans h.1, h'.2.1.trans h.2.1, h'.2.2.1.trans h.2.2.1,
    h'.2.2.2.trans h.2.2.2⟩

theorem grows_refl (m : Mode) (o : Outputs) : Grows m o o :=
  ⟨0, [], [], [], [], by simp⟩

theorem grows_trans {m : Mode} {o o' o'' : Outputs}
    (h : Grows m o o') (h' : Grows m o' o'') : Grows m o o'' := by
  obtain ⟨k, ep, ei, es, ee, hp, hpl, hi, hil, hs, hsl, he, hel⟩ := h
  obtain ⟨k', ep', ei', es', ee', hp', hpl', hi', hil', hs', hsl', he', hel'⟩ :=
    h'
  refine ⟨k + k', ep ++ ep', ei ++ ei', es ++ es', ee ++ ee',
    ?_, ?_, ?_, ?_, ?_, ?_, ?_, ?_⟩ <;>
    simp [hp', hp, hi', hi, hs', hs, he', he, hpl, hpl', hil, hil', hsl,
      hsl', hel, hel'] <;> split <;> simp

theorem append_grows (cfg : Config) (m : Mode) (w : List Nat) (w0 : Int)
    (c : Nat) (t : EncodedToken) (out : Outputs) :
    Grows m out (appendTokenToOutput cfg m w w0 c t out).1 := by
  have hp : ∃ e, (appendTokenToOutput cfg m w w0 c t out).1.pieces =
      out.pieces ++ e ∧ e.length = (if m.getPieces = true then 1 else 0) := by
    cases hP : m.getPieces <;> cases hI : m.getIds <;>
      cases hO : m.getOffsets <;> simp [appendTokenToOutput, hP, hI, hO]
  have hi : ∃ e, (appendTokenToOutput cfg m w w0 c t out).1.ids =
      out.ids ++ e ∧ e.length = (if m.getIds = true then 1 else 0) := by
    cases hP : m.getPieces <;> cases hI : m.getIds <;>
      cases hO : m.getOffsets <;> simp [appendTokenToOutput, hP, hI, hO]
  have hs : ∃ e, (appendTokenToOutput cfg m w w0 c t out).1.starts =
      out.starts ++ e ∧ e.length = (if m.getOffsets = true then 1 else 0) := by
    cases hP : m.getPieces <;> cases hI : m.getIds <;>
      cases hO : m.getOffsets <;> simp [appendTokenToOutput, hP, hI, hO]
  have he : ∃ e, (appendTokenToOutput cfg m w w0 c t out).1.ends =
      out.ends ++ e ∧ e.length = (if m.getOffsets = true then 1 else 0) := by
    cases hP : m.getPieces <;> cases hI : m.getIds <;>
      cases hO : m.getOffsets <;> simp [appendTokenToOutput, hP, hI, hO]
  obtain ⟨ep, hp1, hp2⟩ := hp
  obtain ⟨ei, hi1, hi2⟩ := hi
  obtain ⟨es, hs1, hs2⟩ := hs
  obtain ⟨ee, he1, he2⟩ := he
  exact ⟨1, ep, ei, es, ee, hp1, hp2, hi1, hi2, hs1, hs2, he1, he2⟩

theorem foldl_append_grows (cfg : Config) (m : Mode) (w : List Nat) (w0 : Int)
    (L : List EncodedToken) : ∀ (out : Outputs) (c : Nat),
    Grows m out (L.foldl
      (fun acc t => appendTokenToOutput cfg m w w0 acc.2 t acc.1)
      (out, c)).1 := by
  induction L with
  | nil => intro out c; exact grows_refl m out
  | cons t rest ih =>
    intro out c
    simp only [List.foldl_cons]
    exact grows_trans (append_grows cfg m w w0 c t out)
      (ih (appendTokenToOutput cfg m w w0 c t out).1
        (appendTokenToOutput cfg m w w0 c t out).2)

theorem tryFollow_grows (cfg : Config) (m : Mode) (w : List Nat) (w0 : Int)
    (c node : Nat) (out : Outputs) (n' : Nat) (o' : Outputs) (c' : Nat)
    (h : tryFollowFailureLinkAndCollectTokens cfg m w w0 c node out =
      some (n', o', c')) : Grows m out o' := by
  unfold tryFollowFailureLinkAndCollectTokens at h
  cases hd : trieData cfg node with
  | some tok =>
    rw [hd] at h
    simp only [Option.some.injEq] at h
    obtain ⟨-, rfl, -⟩ := h
    exact append_grows cfg m w w0 c tok out
  | none =>
    rw [hd] at h
    by_cases hl : (failureStructAt cfg node).failureLink = cfg.nullNode
    · simp [hl] at h
    · simp only [if_neg hl, Option.some.injEq] at h
      obtain ⟨-, rfl, -⟩ := h
      exact foldl_append_grows cfg m w w0 _ out c

theorem matchLoop_grows (cfg : Config) (m : Mode) (w : List Nat) (w0 : Int)
    (bytes : List Nat) : ∀ (fuel node : Nat) (out : Outputs) (c : Nat)
    (n' : Nat) (o' : Outputs) (c' : Nat),
    (matchLoop cfg m w w0 bytes fuel node out c = .ok n' o' c' →
      Grows m out o') ∧
    (matchLoop cfg m w w0 bytes fuel node out c = .fail n' o' c' →
      Grows m out o') := by
  intro fuel
  induction fuel with
  | zero => intro node out c n' o' c'; simp [matchLoop]
  | succ k ih =>
    intro node out c n' o' c'
    constructor <;> intro h <;> unfold matchLoop at h
    · cases htr : trieTraverseSeveralSteps cfg node bytes with
      | some nd =>
        rw [htr] at h
        simp only [FWRes.ok.injEq] at h
        obtain ⟨-, rfl, -⟩ := h
        exact grows_refl m out
      | none =>
        rw [htr] at h
        cases hf : tryFollowFailureLinkAndCollectTokens cfg m w w0 c node
            out with
        | none => rw [hf] at h; simp at h
        | some t =>
          rw [hf] at h
          exact grows_trans
            (tryFollow_grows cfg m w w0 c node out t.1 t.2.1 t.2.2
              (by rw [hf]))
            ((ih t.1 t.2.1 t.2.2 n' o' c').1 h)
    · cases htr : trieTraverseSeveralSteps cfg node bytes with
      | some nd => rw [htr] at h; simp at h
      | none =>
        rw [htr] at h
        cases hf : tryFollowFailureLinkAndCollectTokens cfg m w w0 c node
            out with
        | none =>
          rw [hf] at h
          simp only [FWRes.fail.injEq] at h
          obtain ⟨-, rfl, -⟩ := h
          exact grows_refl m out
        | some t =>
          rw [hf] at h
          exact grows_trans
            (tryFollow_grows cfg m w w0 c node out t.1 t.2.1 t.2.2
              (by rw [hf]))
            ((ih t.1 t.2.1 t.2.2 n' o' c').2 h)

theorem hrLoop_grows (cfg : Config) (m : Mode) (w : List Nat) (w0 : Int) :
    ∀ (fuel node : Nat) (out : Outputs) (c : Nat) (n' : Nat) (o' : Outputs)
    (c' : Nat),
    (hrLoop cfg m w w0 fuel node out c = .success n' o' c' →
      Grows m out o') ∧
    (hrLoop cfg m w w0 fuel node out c = .failUnk o' c' → Grows m out o') := by
  intro fuel
  induction fuel with
  | zero => intro node out c n' o' c'; simp [hrLoop]
  | succ k ih =>
    intro node out c n' o' c'
    constructor <;> intro h <;> unfold hrLoop at h
    · by_cases hex : node = cfg.trieSuffixRoot ∨
          node = cfg.triePunctFailureLinkNode
      · rw [if_pos hex] at h
        simp only [HRes.success.injEq] at h
        obtain ⟨-, rfl, -⟩ := h
        exact grows_refl m out
      · rw [if_neg hex] at h
        cases hf : tryFollowFailureLinkAndCollectTokens cfg m w w0 c node
            out with
        | none => rw [hf] at h; simp at h
        | some t =>
          rw [hf] at h
          exact grows_trans
            (tryFollow_grows cfg m w w0 c node out t.1 t.2.1 t.2.2
              (by rw [hf]))
            ((ih t.1 t.2.1 t.2.2 n' o' c').1 h)
    · by_cases hex : node = cfg.trieSuffixRoot ∨
          node = cfg.triePunctFailureLinkNode
      · rw [if_pos hex] at h; simp at h
      · rw [if_neg hex] at h
        cases hf : tryFollowFailureLinkAndCollectTokens cfg m w w0 c node
            out with
        | none =>
          rw [hf] at h
          simp only [HRes.failUnk.injEq] at h
          obtain ⟨rfl, -⟩ := h
          exact grows_refl m out
        | some t =>
          rw [hf] at h
          exact grows_trans
            (tryFollow_grows cfg m w w0 c node out t.1 t.2.1 t.2.2
              (by rw [hf]))
            ((ih t.1 t.2.1 t.2.2 n' o' c').2 h)

theorem e2eInner_grows (cfg : Config) (m : Mode) (text : List Nat)
    (wordStart : Nat) : ∀ (fuel curPos cur node : Nat) (out : Outputs)
    (c wl : Nat) (nd : Nat) (o' : Outputs) (c' : Nat) (cu : Nat)
    (p np pv : Nat),
    (e2eInner cfg m text wordStart fuel curPos cur node out c wl =
      .endOfText nd o' c' cu → Grows m out o') ∧
    (e2eInner cfg m text wordStart fuel curPos cur node out c wl =
      .boundary p np pv cu nd o' c' → Grows m out o') := by
  intro fuel
  induction fuel with
  | zero => intro curPos cur node out c wl nd o' c' cu p np pv; simp [e2eInner]
  | succ k ih =>
    intro curPos cur node out c wl nd o' c' cu p np pv
    constructor <;> intro h <;> unfold e2eInner at h
    · by_cases hin : curPos < text.length
      · rw [if_pos hin] at h
        dsimp only at h
        by_cases hmx : wl + ((u8Next text curPos).2 - curPos) >
            cfg.maxBytesPerToken
        · rw [if_pos hmx] at h; simp at h
        · rw [if_neg hmx] at h
          cases hml : matchLoop cfg m (text.drop wordStart) (wordStart : Int)
              ((text.drop curPos).take ((u8Next text curPos).2 - curPos)) k
              node out c with
          | ok n1 o1 c1 =>
            rw [hml] at h
            exact grows_trans
              ((matchLoop_grows cfg m (text.drop wordStart) (wordStart : Int)
                _ k node out c n1 o1 c1).1 hml)
              ((ih _ _ n1 o1 c1 _ nd o' c' cu p np pv).1 h)
          | fail n1 o1 c1 => rw [hml] at h; simp at h
          | nofuel => rw [hml] at h; simp at h
      · rw [if_neg hin] at h
        simp only [InnerRes.endOfText.injEq] at h
        obtain ⟨-, rfl, -⟩ := h
        exact grows_refl m out
    · by_cases hin : curPos < text.length
      · rw [if_pos hin] at h
        dsimp only at h
        by_cases hmx : wl + ((u8Next text curPos).2 - curPos) >
            cfg.maxBytesPerToken
        · rw [if_pos hmx] at h
          simp only [InnerRes.boundary.injEq] at h
          obtain ⟨-, -, -, -, -, rfl, -⟩ := h
          exact grows_refl m out
        · rw [if_neg hmx] at h
          cases hml : matchLoop cfg m (text.drop wordStart) (wordStart : Int)
              ((text.drop curPos).take ((u8Next text curPos).2 - curPos)) k
              node out c with
          | ok n1 o1 c1 =>
            rw [hml] at h
            exact grows_trans
              ((matchLoop_grows cfg m (text.drop wordStart) (wordStart : Int)
                _ k node out c n1 o1 c1).1 hml)
              ((ih _ _ n1 o1 c1 _ nd o' c' cu p np pv).2 h)
          | fail n1 o1 c1 =>
            rw [hml] at h
            simp only [InnerRes.boundary.injEq] at h
            obtain ⟨-, -, -, -, -, rfl, -⟩ := h
            exact (matchLoop_grows cfg m (text.drop wordStart)
              (wordStart : Int) _ k node out c n1 o1 c1).2 hml
          | nofuel => rw [hml] at h; simp at h
      · rw [if_neg hin] at h; simp at h

theorem take_ext {α : Type} {l l' e : List α} {n : Nat} (h : l' = l ++ e)
    (hle : n ≤ l.length ∨ e = []) : l'.take n = l.take n := by
  rcases hle with hle | rfl
  · rw [h]; exact List.take_append_of_le_length hle
  · rw [h, List.append_nil]

theorem orig_le_csize {m : Mode} {n : Nat} {o : Outputs}
    (mwf : m.getPieces = true ∨ m.getIds = true) (hok : OutOk m n o) :
    n ≤ currentSize m o := by
  unfold currentSize
  cases hP : m.getPieces with
  | true => simpa using hok.1 hP
  | false =>
    simp only [Bool.false_eq_true, if_false]
    rcases mwf with hw | hw
    · rw [hP] at hw; exact absurd hw (by simp)
    · exact hok.2.1 hw

theorem grows_pres {m : Mode} {n : Nat} {o o' : Outputs} (h : Grows m o o')
    (mwf : m.getPieces = true ∨ m.getIds = true) (hok : OutOk m n o)
    (hsy : Sync m o) :
    TakeNEq n o o' ∧ OutOk m n o' ∧ Sync m o' ∧
    currentSize m o ≤ currentSize m o' := by
  obtain ⟨k, ep, ei, es, ee, hp, hpl, hi, hil, hs, hsl, he, hel⟩ := h
  have lp : o'.pieces.length = o.pieces.length + ep.length := by rw [hp]; simp
  have li : o'.ids.length = o.ids.length + ei.length := by rw [hi]; simp
  have ls : o'.starts.length = o.starts.length + es.length := by
    rw [hs]; simp
  have le : o'.ends.length = o.ends.length + ee.length := by rw [he]; simp
  have hcs : currentSize m o' = currentSize m o + k := by
    unfold currentSize
    cases hP : m.getPieces with
    | true =>
      simp only [eq_self_iff_true, if_true]
      rw [hP] at hpl; simp at hpl; omega
    | false =>
      simp only [Bool.false_eq_true, if_false]
      rcases mwf with hw | hw
      · rw [hP] at hw; exact absurd hw (by simp)
      · rw [hw] at hil; simp at hil; omega
  refine ⟨⟨?_, ?_, ?_, ?_⟩, ⟨?_, ?_, ?_⟩, ⟨?_, ?_, ?_⟩, by omega⟩
  · refine take_ext hp ?_
    cases hP : m.getPieces with
    | true => exact Or.inl (hok.1 hP)
    | false => right; rw [hP] at hpl; simpa using hpl
  · refine take_ext hi ?_
    cases hI : m.getIds with
    | true => exact Or.inl (hok.2.1 hI)
    | false => right; rw [hI] at hil; simpa using hil
  · refine take_ext hs ?_
    cases hO : m.getOffsets with
    | true => exact Or.inl (hok.2.2 hO).1
    | false => right; rw [hO] at hsl; simpa using hsl
  · refine take_ext he ?_
    cases hO : m.getOffsets with
    | true => exact Or.inl (hok.2.2 hO).2
    | false => right; rw [hO] at hel; simpa using hel
  · intro hP; have := hok.1 hP; omega
  · intro hI; have := hok.2.1 hI; omega
  · intro hO; have := hok.2.2 hO; omega
  · intro hP
    have h1 := hsy.1 hP
    rw [hP] at hpl; simp at hpl
    rw [hcs]
    omega
  · intro hI
    have h1 := hsy.2.1 hI
    rw [hI] at hil; simp at hil
    rw [hcs]
    omega
  · intro hO
    have h1 := hsy.2.2 hO
    rw [hO] at hsl hel; simp at hsl hel
    rw [hcs]
    omega

theorem take_reset {α : Type} {l r : List α} {n : Nat} {x : α}
    (h : r = l.take n ++ [x]) (hle : n ≤ l.length) :
    r.take n = l.take n ∧ r.length = n + 1 := by
  constructor
  · rw [h, List.take_append_of_le_length (by simp; omega), List.take_take]
    simp
  · rw [h]; simp; omega

theorem reset_pres (cfg : Config) (m : Mode) (w0 : Int) (sz orig : Nat)
    (out : Outputs) (mwf : m.getPieces = true ∨ m.getIds = true)
    (hok : OutOk m orig out) :
    TakeNEq orig out (resetOutputAppendUnknownToken cfg m w0 sz orig out).1 ∧
    OutOk m (orig + 1) (resetOutputAppendUnknownToken cfg m w0 sz orig
      out).1 ∧
    Sync m (resetOutputAppendUnknownToken cfg m w0 sz orig out).1 ∧
    currentSize m (resetOutputAppendUnknownToken cfg m w0 sz orig out).1 =
      orig + 1 := by
  have hspec := reset_spec cfg m w0 sz orig out hok.1 hok.2.1
    (fun h => (hok.2.2 h).1) (fun h => (hok.2.2 h).2)
  set r := (resetOutputAppendUnknownToken cfg m w0 sz orig out).1 with hr
  have hpP : r.pieces.take orig = out.pieces.take orig ∧
      (m.getPieces = true → r.pieces.length = orig + 1) ∧
      (m.getPieces = false → r.pieces = out.pieces) := by
    cases hP : m.getPieces with
    | true =>
      have := take_reset (hspec.1 hP) (hok.1 hP)
      exact ⟨this.1, fun _ => this.2, by simp⟩
    | false =>
      refine ⟨by rw [hspec.2.1 hP], by simp, fun _ => hspec.2.1 hP⟩
  have hpI : r.ids.take orig = out.ids.take orig ∧
      (m.getIds = true → r.ids.length = orig + 1) ∧
      (m.getIds = false → r.ids = out.ids) := by
    cases hI : m.getIds with
    | true =>
      have := take_reset (hspec.2.2.1 hI) (hok.2.1 hI)
      exact ⟨this.1, fun _ => this.2, by simp⟩
    | false =>
      refine ⟨by rw [hspec.2.2.2.1 hI], by simp, fun _ => hspec.2.2.2.1 hI⟩
  have hpO : r.starts.take orig = out.starts.take orig ∧
      r.ends.take orig = out.ends.take orig ∧
      (m.getOffsets = true → r.starts.length = orig + 1 ∧
        r.ends.length = orig + 1) ∧
      (m.getOffsets = false → r.starts = out.starts ∧ r.ends = out.ends) := by
    cases hO : m.getOffsets with
    | true =>
      have h1 := take_reset (hspec.2.2.2.2.1 hO).1 (hok.2.2 hO).1
      have h2 := take_reset (hspec.2.2.2.2.1 hO).2 (hok.2.2 hO).2
      exact ⟨h1.1, h2.1, fun _ => ⟨h1.2, h2.2⟩, by simp⟩
    | false =>
      refine ⟨by rw [(hspec.2.2.2.2.2.1 hO).1],
        by rw [(hspec.2.2.2.2.2.1 hO).2], by simp,
        fun _ => hspec.2.2.2.2.2.1 hO⟩
  have hcs : currentSize m r = orig + 1 := by
    unfold currentSize
    cases hP : m.getPieces with
    | true =>
      simp only [eq_self_iff_true, if_true]
      exact hpP.2.1 hP
    | false =>
      simp only [Bool.false_eq_true, if_false]
      rcases mwf with hw | hw
      · rw [hP] at hw; exact absurd hw (by simp)
      · exact hpI.2.1 hw
  refine ⟨⟨hpP.1, hpI.1, hpO.1, hpO.2.1⟩, ⟨?_, ?_, ?_⟩, ⟨?_, ?_, ?_⟩, hcs⟩
  · intro hP; rw [hpP.2.1 hP]
  · intro hI; rw [hpI.2.1 hI]
  · intro hO; rw [(hpO.2.2.1 hO).1, (hpO.2.2.1 hO).2]; omega
  · intro hP; rw [hpP.2.1 hP, hcs]
  · intro hI; rw [hpI.2.1 hI, hcs]
  · intro hO; rw [(hpO.2.2.1 hO).1, (hpO.2.2.1 hO).2, hcs]; omega

theorem trySuffix_cases (cfg : Config) (m : Mode) (w : List Nat) (w0 : Int)
    (node c orig : Nat) (out : Outputs) (o1 : Outputs) (c1 : Nat)
    (h : tryHandleTheInputWordBeingSuffixIndicatorItself cfg m w w0 node c
      orig out = some (o1, c1)) :
    o1 = (resetOutputAppendUnknownToken cfg m w0 w.length orig out).1 ∨
    Grows m out o1 := by
  unfold tryHandleTheInputWordBeingSuffixIndicatorItself at h
  split at h
  · exact absurd h (by simp)
  · split at h
    · exact absurd h (by simp)
    · split at h
      · left
        simp only [Option.some.injEq, Prod.mk.injEq] at h
        exact h.1.symm
      · right
        simp only [Option.some.injEq] at h
        have h1 : o1 = (cfg.precomputedResultForSuffixIndicator.foldl
            (fun acc t => appendTokenToOutput cfg m w w0 acc.2 t acc.1)
            (out, c)).1 := (congrArg Prod.fst h).symm
        rw [h1]
        exact foldl_append_grows cfg m w w0 _ out c

theorem hr_master (cfg : Config) (m : Mode) (w : List Nat) (w0 : Int)
    (mwf : m.getPieces = true ∨ m.getIds = true) (fuel node orig c : Nat)
    (out out' : Outputs) (orig' c' : Nat) (hok : OutOk m orig out)
    (hsy : Sync m out)
    (h : handleTheRemainingStringOnTriePath cfg m w w0 fuel node orig c out =
      some (out', orig', c')) :
    TakeNEq orig out out' ∧ OutOk m orig' out' ∧ Sync m out' ∧
    orig ≤ orig' ∧ (node ≠ cfg.trieRootId → orig' = currentSize m out') := by
  unfold handleTheRemainingStringOnTriePath at h
  by_cases hroot : node = cfg.trieRootId
  · rw [if_pos hroot] at h
    simp only [Option.some.injEq, Prod.mk.injEq] at h
    obtain ⟨rfl, rfl, -⟩ := h
    exact ⟨takeNEq_refl orig out, hok, hsy, Nat.le_refl orig,
      fun hne => absurd hroot hne⟩
  · rw [if_neg hroot] at h
    cases hts : tryHandleTheInputWordBeingSuffixIndicatorItself cfg m w w0
        node c orig out with
    | some t =>
      rw [hts] at h
      simp only [Option.some.injEq, Prod.mk.injEq] at h
      obtain ⟨rfl, rfl, -⟩ := h
      rcases trySuffix_cases cfg m w w0 node c orig out t.1 t.2
          (by rw [hts]) with hreset | hgrow
      · rw [hreset]
        have hr := reset_pres cfg m w0 w.length orig out mwf hok
        refine ⟨hr.1, ?_, hr.2.2.1, ?_, fun _ => rfl⟩
        · rw [hr.2.2.2]; exact hr.2.1
        · rw [hr.2.2.2]; omega
      · have hg := grows_pres hgrow mwf hok hsy
        have hle : orig ≤ currentSize m t.1 :=
          Nat.le_trans (orig_le_csize mwf hok) hg.2.2.2
        refine ⟨hg.1, ?_, hg.2.2.1, hle, fun _ => rfl⟩
        · have hsy' := hg.2.2.1
          exact ⟨fun hP => by rw [hsy'.1 hP], fun hI => by rw [hsy'.2.1 hI],
            fun hO => by rw [(hsy'.2.2 hO).1, (hsy'.2.2 hO).2]; omega⟩
    | none =>
      rw [hts] at h
      cases hl : hrLoop cfg m w w0 fuel node out c with
      | success n1 o1 c1 =>
        rw [hl] at h
        simp only [Option.some.injEq, Prod.mk.injEq] at h
        obtain ⟨rfl, rfl, -⟩ := h
        have hgrow := (hrLoop_grows cfg m w w0 fuel node out c n1 o1 c1).1 hl
        have hg := grows_pres hgrow mwf hok hsy
        have hle : orig ≤ currentSize m o1 :=
          Nat.le_trans (orig_le_csize mwf hok) hg.2.2.2
        refine ⟨hg.1, ?_, hg.2.2.1, hle, fun _ => rfl⟩
        have hsy' := hg.2.2.1
        exact ⟨fun hP => by rw [hsy'.1 hP], fun hI => by rw [hsy'.2.1 hI],
          fun hO => by rw [(hsy'.2.2 hO).1, (hsy'.2.2 hO).2]; omega⟩
      | failUnk o1 c1 =>
        rw [hl] at h
        simp only [Option.some.injEq, Prod.mk.injEq] at h
        obtain ⟨rfl, rfl, -⟩ := h
        have hgrow := (hrLoop_grows cfg m w w0 fuel node out c 0 o1 c1).2 hl
        have hg := grows_pres hgrow mwf hok hsy
        have hr := reset_pres cfg m w0 w.length orig o1 mwf hg.2.1
        have hsnd : (resetOutputAppendUnknownToken cfg m w0 w.length orig
            o1).2 = orig + 1 := rfl
        refine ⟨takeNEq_trans hg.1 hr.1, ?_, hr.2.2.1, ?_, ?_⟩
        · rw [hsnd]; exact hr.2.1
        · rw [hsnd]; omega
        · intro hne
          rw [hsnd, hr.2.2.2]
      | nofuel => rw [hl] at h; simp at h

/-- Claim C9: once a word has been successfully flushed its tokens are never
removed by later processing.  Each outer-loop step of `TokenizeTextImpl`
leaves the first `original_num_tokens` entries of every output container
unchanged, never decreases the rollback marker and keeps it within the
output size (so a subsequent unknown-token reset truncates only tokens
tentatively emitted for the current word); and whenever
`HandleTheRemainingStringOnTriePath` completes a non-empty word it advances
`original_num_tokens` to the current output size. -/
theorem claim_c9 :
    (∀ (cfg : Config) (m : Mode) (text : List Nat) (fuel : Nat)
      (s s' : E2EState), (m.getPieces = true ∨ m.getIds = true) →
      OutOk m s.orig s.out → Sync m s.out →
      e2eStep cfg m text fuel s = .next s' →
      TakeNEq s.orig s.out s'.out ∧ s.orig ≤ s'.orig ∧
      OutOk m s'.orig s'.out ∧ Sync m s'.out) ∧
    (∀ (cfg : Config) (m : Mode) (text : List Nat) (fuel : Nat)
      (s : E2EState) (o : Outputs), (m.getPieces = true ∨ m.getIds = true) →
      OutOk m s.orig s.out → Sync m s.out →
      e2eStep cfg m text fuel s = .done o → TakeNEq s.orig s.out o) ∧
    (∀ (cfg : Config) (m : Mode) (w : List Nat) (w0 : Int)
      (fuel node orig c : Nat) (out : Outputs) (r : Outputs × Nat × Nat),
      (m.getPieces = true ∨ m.getIds = true) → OutOk m orig out →
      Sync m out → node ≠ cfg.trieRootId →
      handleTheRemainingStringOnTriePath cfg m w w0 fuel node orig c out =
        some r → r.2.1 = currentSize m r.1) := by
  refine ⟨?_, ?_, ?_⟩
  · intro cfg m text fuel s s' mwf hok hsy h
    unfold e2eStep at h
    dsimp only at h
    cases hinn : e2eInner cfg m text s.curPos fuel s.curPos s.cur
        cfg.trieRootId s.out 0 0 with
    | endOfText n1 o1 c1 cu1 =>
      rw [hinn] at h
      dsimp only at h
      cases hhr : handleTheRemainingStringOnTriePath cfg m
          (text.drop s.curPos) (s.curPos : Int) fuel n1 s.orig c1 o1 with
      | some r => obtain ⟨a, b, c⟩ := r; rw [hhr] at h; simp at h
      | none => rw [hhr] at h; simp at h
    | boundary p np pv cu n1 o1 c1 =>
      rw [hinn] at h
      dsimp only at h
      have hgrow := (e2eInner_grows cfg m text s.curPos fuel s.curPos s.cur
        cfg.trieRootId s.out 0 0 n1 o1 c1 cu p np pv).2 hinn
      have hg := grows_pres hgrow mwf hok hsy
      by_cases hb : (cfg.isWhitespace cu || cfg.isPunct cu ||
          (decide (p ≠ 0) && cfg.isPunct pv)) = true
      · rw [if_pos hb] at h
        cases hhr : handleTheRemainingStringOnTriePath cfg m
            ((text.drop s.curPos).take (p - s.curPos)) (s.curPos : Int) fuel
            n1 s.orig c1 o1 with
        | some r =>
          obtain ⟨o2, orig2, c2⟩ := r
          rw [hhr] at h
          simp only [StepRes.next.injEq] at h
          have hm := hr_master cfg m ((text.drop s.curPos).take
            (p - s.curPos)) (s.curPos : Int) mwf fuel n1 s.orig c1 o1 o2
            orig2 c2 hg.2.1 hg.2.2.1 hhr
          rw [← h]
          exact ⟨takeNEq_trans hg.1 hm.1, hm.2.2.2.1, hm.2.1, hm.2.2.1⟩
        | none => rw [hhr] at h; simp at h
      · rw [if_neg hb] at h
        simp only [StepRes.next.injEq] at h
        have hr := reset_pres cfg m (s.curPos : Int)
          ((skipTheRemainingOfWordAndTrailingWhiteSpaces cfg text np np).1 -
            s.curPos) s.orig o1 mwf hg.2.1
        have hsnd : (resetOutputAppendUnknownToken cfg m (s.curPos : Int)
            ((skipTheRemainingOfWordAndTrailingWhiteSpaces cfg text np
              np).1 - s.curPos) s.orig o1).2 = s.orig + 1 := rfl
        rw [← h]
        refine ⟨takeNEq_trans hg.1 hr.1, ?_, ?_, hr.2.2.1⟩
        · simp only [hsnd]; omega
        · simp only [hsnd]; exact hr.2.1
    | nofuel => rw [hinn] at h; dsimp only at h; simp at h
  · intro cfg m text fuel s o mwf hok hsy h
    unfold e2eStep at h
    dsimp only at h
    cases hinn : e2eInner cfg m text s.curPos fuel s.curPos s.cur
        cfg.trieRootId s.out 0 0 with
    | endOfText n1 o1 c1 cu1 =>
      rw [hinn] at h
      dsimp only at h
      have hgrow := (e2eInner_grows cfg m text s.curPos fuel s.curPos s.cur
        cfg.trieRootId s.out 0 0 n1 o1 c1 cu1 0 0 0).1 hinn
      have hg := grows_pres hgrow mwf hok hsy
      cases hhr : handleTheRemainingStringOnTriePath cfg m
          (text.drop s.curPos) (s.curPos : Int) fuel n1 s.orig c1 o1 with
      | some r =>
        obtain ⟨o2, orig2, c2⟩ := r
        rw [hhr] at h
        simp only [StepRes.done.injEq] at h
        have hm := hr_master cfg m (text.drop s.curPos) (s.curPos : Int) mwf
          fuel n1 s.orig c1 o1 o2 orig2 c2 hg.2.1 hg.2.2.1 hhr
        rw [← h]
        exact takeNEq_trans hg.1 hm.1
      | none => rw [hhr] at h; simp at h
    | boundary p np pv cu n1 o1 c1 =>
      rw [hinn] at h
      dsimp only at h
      by_cases hb : (cfg.isWhitespace cu || cfg.isPunct cu ||
          (decide (p ≠ 0) && cfg.isPunct pv)) = true
      · rw [if_pos hb] at h
        cases hhr : handleTheRemainingStringOnTriePath cfg m
            ((text.drop s.curPos).take (p - s.curPos)) (s.curPos : Int) fuel
            n1 s.orig c1 o1 with
        | some r => obtain ⟨a, b, c⟩ := r; rw [hhr] at h; simp at h
        | none => rw [hhr] at h; simp at h
      · rw [if_neg hb] at h; simp at h
    | nofuel => rw [hinn] at h; dsimp only at h; simp at h
  · intro cfg m w w0 fuel node orig c out r mwf hok hsy hne h
    obtain ⟨o1, orig1, c1⟩ := r
    exact ((hr_master cfg m w w0 mwf fuel node orig c out o1 orig1 c1 hok
      hsy h).2.2.2.2 hne).symm ▸ rfl

/-- Witness for C9: one outer step of the end-to-end loop on `a b` flushes
the word `a`, preserves the (empty) prefix, and advances the rollback marker
to the new output size 1. -/
theorem claim_c9_witness :
    TakeNEq 0 emptyOutputs ⟨[[97]], [0], [0], [1]⟩ ∧ 0 ≤ 1 ∧
    OutOk ModeFull 1 ⟨[[97]], [0], [0], [1]⟩ ∧
    Sync ModeFull ⟨[[97]], [0], [0], [1]⟩ := by
  have h := claim_c9.1 cfgE2E ModeFull [97, 32, 98] 20 ⟨0, 0, emptyOutputs, 0⟩
    ⟨2, 32, ⟨[[97]], [0], [0], [1]⟩, 1⟩ (Or.inl rfl)
    ⟨fun _ => Nat.zero_le _, fun _ => Nat.zero_le _,
      fun _ => ⟨Nat.zero_le _, Nat.zero_le _⟩⟩
    ⟨fun _ => rfl, fun _ => rfl, fun _ => ⟨rfl, rfl⟩⟩ (by decide)
  exact h

theorem u8Next_lt (buf : List Nat) (i : Nat) : i < (u8Next buf i).2 := by
  unfold u8Next
  dsimp only
  split
  · omega
  · split
    · omega
    · split
      · omega
      · split <;> omega

theorem skip_ge_aux (cfg : Config) (input : List Nat) : ∀ (k e p : Nat),
    input.length - p ≤ k →
    p ≤ (skipTheRemainingOfWordAndTrailingWhiteSpaces cfg input e p).2 := by
  intro k
  induction k with
  | zero =>
    intro e p hk
    unfold skipTheRemainingOfWordAndTrailingWhiteSpaces
    rw [dif_neg (by omega)]
  | succ k ih =>
    intro e p hk
    unfold skipTheRemainingOfWordAndTrailingWhiteSpaces
    by_cases hin : p < input.length
    · rw [dif_pos hin]
      dsimp only
      by_cases hws : cfg.isWhitespace (u8Next input p).1 = true
      · rw [if_pos hws]
        exact Nat.le_of_lt (u8Next_lt input p)
      · rw [if_neg hws]
        by_cases hpu : cfg.isPunct (u8Next input p).1 = true
        · rw [if_pos hpu]
        · rw [if_neg hpu]
          have hlt := u8Next_lt input p
          exact Nat.le_trans (Nat.le_of_lt hlt)
            (ih (u8Next input p).2 (u8Next input p).2 (by omega))
    · rw [dif_neg hin]

theorem skip_ge (cfg : Config) (input : List Nat) (e p : Nat) :
    p ≤ (skipTheRemainingOfWordAndTrailingWhiteSpaces cfg input e p).2 :=
  skip_ge_aux cfg input (input.length - p) e p (Nat.le_refl _)

theorem e2eInner_exit (cfg : Config) (m : Mode) (text : List Nat)
    (wordStart : Nat) : ∀ (fuel curPos0 cur0 node : Nat) (out : Outputs)
    (c wl p np pv cp n1 : Nat) (o1 : Outputs) (c1 : Nat),
    e2eInner cfg m text wordStart fuel curPos0 cur0 node out c wl =
      .boundary p np pv cp n1 o1 c1 →
    cp = (u8Next text p).1 ∧ np = (u8Next text p).2 ∧ p < text.length ∧
    ((p = curPos0 ∧ pv = cur0) ∨ curPos0 < p) := by
  intro fuel
  induction fuel with
  | zero =>
    intro curPos0 cur0 node out c wl p np pv cp n1 o1 c1 h
    simp [e2eInner] at h
  | succ k ih =>
    intro curPos0 cur0 node out c wl p np pv cp n1 o1 c1 h
    unfold e2eInner at h
    by_cases hin : curPos0 < text.length
    · rw [if_pos hin] at h
      dsimp only at h
      by_cases hmx : wl + ((u8Next text curPos0).2 - curPos0) >
          cfg.maxBytesPerToken
      · rw [if_pos hmx] at h
        simp only [InnerRes.boundary.injEq] at h
        obtain ⟨rfl, rfl, rfl, rfl, -, -, -⟩ := h
        exact ⟨rfl, rfl, hin, Or.inl ⟨rfl, rfl⟩⟩
      · rw [if_neg hmx] at h
        cases hml : matchLoop cfg m (text.drop wordStart) (wordStart : Int)
            ((text.drop curPos0).take ((u8Next text curPos0).2 - curPos0)) k
            node out c with
        | ok nn oo cc =>
          rw [hml] at h
          have hr := ih (u8Next text curPos0).2 (u8Next text curPos0).1 nn
            oo cc (wl + ((u8Next text curPos0).2 - curPos0)) p np pv cp n1
            o1 c1 h
          refine ⟨hr.1, hr.2.1, hr.2.2.1, Or.inr ?_⟩
          have hlt := u8Next_lt text curPos0
          rcases hr.2.2.2 with ⟨rfl, -⟩ | hlt2 <;> omega
        | fail nn oo cc =>
          rw [hml] at h
          simp only [InnerRes.boundary.injEq] at h
          obtain ⟨rfl, rfl, rfl, rfl, -, -, -⟩ := h
          exact ⟨rfl, rfl, hin, Or.inl ⟨rfl, rfl⟩⟩
        | nofuel => rw [hml] at h; simp at h
    · rw [if_neg hin] at h; simp at h

theorem boundary_eq (cfg : Config) (hpunct : cfg.isPunct 0 = false)
    (p pv cp : Nat) (hcase : p = 0 → (pv = 0 ∨ pv = cp)) :
    boundaryCode cfg p pv cp = boundarySpec cfg pv cp := by
  unfold boundaryCode boundarySpec
  by_cases hp : p = 0
  · subst hp
    rcases hcase rfl with rfl | rfl
    · simp [hpunct]
    · cases h1 : cfg.isPunct pv <;> cases h2 : cfg.isWhitespace pv <;>
        simp [h1, h2]
  · by_cases hv : pv = 0
    · subst hv
      simp [hpunct, hp]
    · simp [hp, hv]

/-- Claim C3: whenever the inner matching loop of `TokenizeTextImpl` stops
at codepoint `cp` with previous codepoint `pv` (at a reachable state of the
outer loop, with `is_punct_or_cjk(0) = false` as the spec's classifier
satisfies), a word boundary is declared exactly when `is_whitespace(cp)`, or
`is_punct_or_cjk(cp)`, or (`pv ≠ 0` and `is_punct_or_cjk(pv)`); at such a
boundary the current word is flushed via
`HandleTheRemainingStringOnTriePath` and `cur_pos` is advanced past `cp`
(to `next_pos`) if and only if `cp` is whitespace; otherwise the
reset-and-skip path is taken.  The last two conjuncts show the reachability
invariant holds initially and is preserved by every step. -/
theorem claim_c3 :
    (∀ (cfg : Config) (m : Mode) (text : List Nat) (fuel : Nat)
      (s : E2EState) (p np pv cp n1 : Nat) (o1 : Outputs) (c1 : Nat),
      cfg.isPunct 0 = false → Inv3 text s →
      e2eInner cfg m text s.curPos fuel s.curPos s.cur cfg.trieRootId s.out
        0 0 = .boundary p np pv cp n1 o1 c1 →
      boundaryCode cfg p pv cp = boundarySpec cfg pv cp ∧
      cp = (u8Next text p).1 ∧ np = (u8Next text p).2 ∧
      e2eStep cfg m text fuel s =
        (if boundarySpec cfg pv cp = true then
          match handleTheRemainingStringOnTriePath cfg m
              ((text.drop s.curPos).take (p - s.curPos)) (s.curPos : Int)
              fuel n1 s.orig c1 o1 with
          | some (out', orig', _) =>
            .next ⟨if cfg.isWhitespace cp = true then np else p, cp, out',
              orig'⟩
          | none => .nofuel
        else
          .next ⟨(skipTheRemainingOfWordAndTrailingWhiteSpaces cfg text np
              np).2, cp,
            (resetOutputAppendUnknownToken cfg m (s.curPos : Int)
              ((skipTheRemainingOfWordAndTrailingWhiteSpaces cfg text np
                np).1 - s.curPos) s.orig o1).1,
            (resetOutputAppendUnknownToken cfg m (s.curPos : Int)
              ((skipTheRemainingOfWordAndTrailingWhiteSpaces cfg text np
                np).1 - s.curPos) s.orig o1).2⟩)) ∧
    (∀ (cfg : Config) (m : Mode) (text : List Nat) (fuel : Nat)
      (s s' : E2EState), e2eStep cfg m text fuel s = .next s' →
      Inv3 text s → Inv3 text s') ∧
    (∀ (text : List Nat) (out : Outputs) (n : Nat),
      Inv3 text ⟨0, 0, out, n⟩) := by
  refine ⟨?_, ?_, ?_⟩
  · intro cfg m text fuel s p np pv cp n1 o1 c1 hpunct hInv hinn
    have hexit := e2eInner_exit cfg m text s.curPos fuel s.curPos s.cur
      cfg.trieRootId s.out 0 0 p np pv cp n1 o1 c1 hinn
    have hcase : p = 0 → (pv = 0 ∨ pv = cp) := by
      intro hp
      rcases hexit.2.2.2 with ⟨hpc, hvc⟩ | hlt
      · rw [hp] at hpc
        rcases hInv hpc.symm with hz | hz
        · left; rw [hvc, hz]
        · right; rw [hvc, hz, hexit.1, hp]
      · omega
    have hbeq := boundary_eq cfg hpunct p pv cp hcase
    refine ⟨hbeq, hexit.1, hexit.2.1, ?_⟩
    unfold e2eStep
    dsimp only
    rw [hinn]
    dsimp only
    unfold boundaryCode boundarySpec at hbeq
    rw [hbeq]
    unfold boundarySpec
    rfl
  · intro cfg m text fuel s s' h hInv
    unfold e2eStep at h
    dsimp only at h
    cases hinn : e2eInner cfg m text s.curPos fuel s.curPos s.cur
        cfg.trieRootId s.out 0 0 with
    | endOfText n1 o1 c1 cu1 =>
      rw [hinn] at h
      dsimp only at h
      cases hhr : handleTheRemainingStringOnTriePath cfg m
          (text.drop s.curPos) (s.curPos : Int) fuel n1 s.orig c1 o1 with
      | some r => obtain ⟨a, b, c⟩ := r; rw [hhr] at h; simp at h
      | none => rw [hhr] at h; simp at h
    | boundary p np pv cp n1 o1 c1 =>
      rw [hinn] at h
      dsimp only at h
      have hexit := e2eInner_exit cfg m text s.curPos fuel s.curPos s.cur
        cfg.trieRootId s.out 0 0 p np pv cp n1 o1 c1 hinn
      have hnp : p < np := hexit.2.1 ▸ u8Next_lt text p
      by_cases hb : (cfg.isWhitespace cp || cfg.isPunct cp ||
          (decide (p ≠ 0) && cfg.isPunct pv)) = true
      · rw [if_pos hb] at h
        cases hhr : handleTheRemainingStringOnTriePath cfg m
            ((text.drop s.curPos).take (p - s.curPos)) (s.curPos : Int) fuel
            n1 s.orig c1 o1 with
        | some r =>
          obtain ⟨o2, g2, c2⟩ := r
          rw [hhr] at h
          simp only [StepRes.next.injEq] at h
          rw [← h]
          intro hz
          simp only at hz
          cases hws : cfg.isWhitespace cp with
          | true => rw [hws] at hz; simp at hz; omega
          | false =>
            rw [hws] at hz
            simp at hz
            right
            rw [hexit.1, hz]
        | none => rw [hhr] at h; simp at h
      · rw [if_neg hb] at h
        simp only [StepRes.next.injEq] at h
        rw [← h]
        intro hz
        simp only at hz
        exfalso
        have hge := skip_ge cfg text np np
        omega
    | nofuel => rw [hinn] at h; simp at h
  · intro text out n hz
    left
    rfl

/-- Witness for C3: on the text `a b` the inner loop stops at the space
(codepoint 32) with previous codepoint 97; the code's boundary test agrees
with the spec's, and the step flushes the word `a` and advances past the
whitespace. -/
theorem claim_c3_witness :
    boundaryCode cfgE2E 1 97 32 = boundarySpec cfgE2E 97 32 ∧
    e2eStep cfgE2E ModeFull [97, 32, 98] 20 ⟨0, 0, emptyOutputs, 0⟩ =
      .next ⟨2, 32, ⟨[[97]], [0], [0], [1]⟩, 1⟩ := by
  have h := claim_c3.1 cfgE2E ModeFull [97, 32, 98] 20 ⟨0, 0, emptyOutputs, 0⟩
    1 2 97 32 2 ⟨[[97]], [0], [0], [1]⟩ 1 (by decide) (fun _ => Or.inl rfl)
    (by decide)
  refine ⟨h.1, ?_⟩
  rw [h.2.2.2]
  decide

theorem trieData_mem (cfg : Config) (n : Nat) (t : EncodedToken)
    (h : trieData cfg n = some t) : (n, t) ∈ cfg.trieDataArr := by
  unfold trieData at h
  cases hf : cfg.trieDataArr.find? (fun d => d.1 = n) with
  | none => rw [hf] at h; exact Option.noConfusion h
  | some d =>
    rw [hf] at h
    simp at h
    have hmem := List.mem_of_find?_eq_some hf
    have hpred := List.find?_some hf
    simp only [decide_eq_true_eq] at hpred
    have : (n, t) = d := by
      cases d with
      | mk d1 d2 => simp only [Prod.mk.injEq]; exact ⟨hpred.symm, h.symm⟩
    rw [this]
    exact hmem

theorem failureStructAt_mem (cfg : Config) (n : Nat)
    (h : (failureStructAt cfg n).failureLink ≠ cfg.nullNode) :
    (n, failureStructAt cfg n) ∈ cfg.failureStructArr := by
  cases hf : cfg.failureStructArr.find? (fun d => d.1 = n) with
  | none =>
    unfold failureStructAt at h
    rw [hf] at h
    exact absurd rfl h
  | some pr =>
    have hmem := List.mem_of_find?_eq_some hf
    have hpred := List.find?_some hf
    simp only [decide_eq_true_eq] at hpred
    have hval : failureStructAt cfg n = pr.2 := by
      unfold failureStructAt
      rw [hf]
      rfl
    rw [hval]
    have hpr : (n, pr.2) = pr := by
      cases pr with
      | mk p1 p2 => simp only [Prod.mk.injEq]; exact ⟨hpred.symm, trivial⟩
    rw [hpr]
    exact hmem

theorem trieStep_sem (cfg : Config) (str : Nat → List Nat)
    (hrt : RoundTripOK cfg str) (node b n' : Nat)
    (h : trieStep cfg node b = some n') :
    str n' = str node ++ [b] ∧ n' ≠ cfg.nullNode := by
  unfold trieStep at h
  cases hf : cfg.trieEdges.find? (fun e => e.1.1 = node ∧ e.1.2 = b) with
  | none => rw [hf] at h; exact Option.noConfusion h
  | some e =>
    rw [hf] at h
    simp at h
    have hmem := List.mem_of_find?_eq_some hf
    have hpred := List.find?_some hf
    simp only [decide_eq_true_eq] at hpred
    have he := hrt.2.2.2.2.2.1 e hmem
    rw [h, hpred.1, hpred.2] at he
    exact he

theorem traverse_single (cfg : Config) (node b : Nat) :
    trieTraverseSeveralSteps cfg node [b] = trieStep cfg node b := by
  simp [trieTraverseSeveralSteps]

theorem appendFull_ids (cfg : Config) (w : List Nat) (w0 : Int) (c : Nat)
    (t : EncodedToken) (out : Outputs) :
    (appendTokenToOutput cfg ModeFull w w0 c t out).1.ids =
      out.ids ++ [t.id] ∧
    (appendTokenToOutput cfg ModeFull w w0 c t out).1.pieces.length =
      out.pieces.length + 1 := by
  simp [appendTokenToOutput, ModeFull]

theorem appendFull_adv (cfg : Config) (w : List Nat) (w0 : Int) (c : Nat)
    (t : EncodedToken) (out : Outputs) :
    (appendTokenToOutput cfg ModeFull w w0 c t out).2 =
      c + (if c == 0 && t.isSuffix then
        t.length + cfg.suffixIndicator.length else t.length) := by
  simp [appendTokenToOutput, ModeFull]

theorem take_split {w A B : List Nat} {c : Nat}
    (h : A ++ B = (w.drop c).take (A.length + B.length)) :
    A = (w.drop c).take A.length ∧
    B = (w.drop (c + A.length)).take B.length := by
  constructor
  · calc A = (A ++ B).take A.length := (List.take_left A B).symm
      _ = ((w.drop c).take (A.length + B.length)).take A.length := by rw [h]
      _ = (w.drop c).take A.length := by
        rw [List.take_take, Nat.min_eq_left (by omega)]
  · calc B = (A ++ B).drop A.length := by simp
      _ = ((w.drop c).take (A.length + B.length)).drop A.length := by rw [h]
      _ = ((w.drop c).drop A.length).take (A.length + B.length - A.length) :=
        List.drop_take ..
      _ = (w.drop (c + A.length)).take B.length := by
        rw [List.drop_drop, Nat.add_sub_cancel_left]

theorem detokStep_suffix_push (cfg : Config) (S : List (List Nat)) (id : Nat)
    (hS : S ≠ []) (hflag : cfg.vocabIsSuffixArr.getD id false = true) :
    detokStep cfg ([], S) id = ([], S ++ [cfg.vocabArr.getD id []]) := by
  have hflag' : cfg.vocabIsSuffixArr[id]?.getD false = true := by
    rw [← List.getD_eq_getElem?_getD]
    exact hflag
  simp [detokStep, List.getD, hflag', hS]

theorem detokStep_start (cfg : Config) (id : Nat) :
    detokStep cfg ([], []) id =
      ([], (if cfg.vocabIsSuffixArr.getD id false then [cfg.suffixIndicator]
        else []) ++ [cfg.vocabArr.getD id []]) := by
  cases hflag : cfg.vocabIsSuffixArr[id]?.getD false <;>
    simp [detokStep, List.getD, hflag]

theorem emit_tail (cfg : Config) (w : List Nat) (w0 : Int) :
    ∀ (T : List EncodedToken) (out : Outputs) (c : Nat),
    (∀ t ∈ T, TokOK cfg t ∧ t.isSuffix = true) → 1 ≤ c →
    c + ((T.map (fun t => cfg.vocabArr.getD t.id [])).flatten).length ≤
      w.length →
    (T.map (fun t => cfg.vocabArr.getD t.id [])).flatten =
      (w.drop c).take
        ((T.map (fun t => cfg.vocabArr.getD t.id [])).flatten).length →
    DState cfg w out.ids c →
    (T.foldl (fun acc t => appendTokenToOutput cfg ModeFull w w0 acc.2 t
        acc.1) (out, c)).2 =
      c + ((T.map (fun t => cfg.vocabArr.getD t.id [])).flatten).length ∧
    DState cfg w
      (T.foldl (fun acc t => appendTokenToOutput cfg ModeFull w w0 acc.2 t
        acc.1) (out, c)).1.ids
      (T.foldl (fun acc t => appendTokenToOutput cfg ModeFull w w0 acc.2 t
        acc.1) (out, c)).2 ∧
    (T.foldl (fun acc t => appendTokenToOutput cfg ModeFull w w0 acc.2 t
        acc.1) (out, c)).1.ids = out.ids ++ T.map (fun t => t.id) ∧
    (T.foldl (fun acc t => appendTokenToOutput cfg ModeFull w w0 acc.2 t
        acc.1) (out, c)).1.pieces.length =
      out.pieces.length + T.length := by
  intro T
  induction T with
  | nil =>
    intro out c htok hc hlen halign hD
    simpa using hD
  | cons t T' ih =>
    intro out c htok hc hlen halign hD
    obtain ⟨htok1, hsfx1⟩ := htok t (by simp)
    have htok' : ∀ u ∈ T', TokOK cfg u ∧ u.isSuffix = true :=
      fun u hu => htok u (by simp [hu])
    have hvl : (cfg.vocabArr.getD t.id []).length = t.length := htok1.1
    have hc0 : (c == 0) = false := by
      simp only [beq_eq_false_iff_ne, ne_eq]
      omega
    have hadv : (appendTokenToOutput cfg ModeFull w w0 c t out).2 =
        c + t.length := by
      rw [appendFull_adv, hc0]
      simp
    have hids1 := (appendFull_ids cfg w w0 c t out).1
    have hpl1 := (appendFull_ids cfg w w0 c t out).2
    have halign2 : cfg.vocabArr.getD t.id [] ++
        (T'.map (fun u => cfg.vocabArr.getD u.id [])).flatten =
        (w.drop c).take ((cfg.vocabArr.getD t.id []).length +
          ((T'.map (fun u => cfg.vocabArr.getD u.id [])).flatten).length) := by
      have := halign
      simp only [List.map_cons, List.flatten_cons, List.length_append]
        at this
      exact this
    have hsplit := take_split halign2
    have hfold : out.ids.foldl (detokStep cfg) ([], []) =
        ([], (out.ids.foldl (detokStep cfg) ([], [])).2) := by
      have := (Prod.mk.eta
        (p := out.ids.foldl (detokStep cfg) ([], []))).symm
      rw [hD.1] at this
      exact this
    have hstep : (out.ids ++ [t.id]).foldl (detokStep cfg) ([], []) =
        ([], (out.ids.foldl (detokStep cfg) ([], [])).2 ++
          [cfg.vocabArr.getD t.id []]) := by
      rw [List.foldl_append, List.foldl_cons, List.foldl_nil, hfold]
      exact detokStep_suffix_push cfg _ t.id hD.2.1
        (by rw [htok1.2.2, hsfx1])
    have hD1 : DState cfg w
        (appendTokenToOutput cfg ModeFull w w0 c t out).1.ids
        (appendTokenToOutput cfg ModeFull w w0 c t out).2 := by
      rw [hids1, hadv]
      refine ⟨by rw [hstep], by rw [hstep]; simp, ?_⟩
      rw [hstep]
      simp only [List.flatten_append, List.flatten_cons, List.flatten_nil,
        List.append_nil]
      rw [hD.2.2]
      have hA : cfg.vocabArr.getD t.id [] = (w.drop c).take t.length := by
        rw [← hvl]
        exact hsplit.1
      rw [hA, ← List.take_add]
    have hlen2 : (c + t.length) +
        ((T'.map (fun u => cfg.vocabArr.getD u.id [])).flatten).length ≤
        w.length := by
      have := hlen
      simp only [List.map_cons, List.flatten_cons, List.length_append]
        at this
      omega
    have halign' : (T'.map (fun u => cfg.vocabArr.getD u.id [])).flatten =
        (w.drop (c + t.length)).take
          ((T'.map (fun u => cfg.vocabArr.getD u.id [])).flatten).length := by
      have := hsplit.2
      rw [hvl] at this
      exact this
    have hrec := ih (appendTokenToOutput cfg ModeFull w w0 c t out).1
      (appendTokenToOutput cfg ModeFull w w0 c t out).2
      htok' ?hcc ?hl ?ha ?hd
    case hcc => rw [hadv]; omega
    case hl => rw [hadv]; exact hlen2
    case ha => rw [hadv]; exact halign'
    case hd => exact hD1
    · simp only [List.foldl_cons]
      simp only [List.map_cons, List.flatten_cons, List.length_append]
      refine ⟨?_, hrec.2.1, ?_, ?_⟩
      · rw [hrec.1, hadv, hvl]
        omega
      · rw [hrec.2.2.1, hids1, List.append_assoc]
        simp
      · rw [hrec.2.2.2, hpl1]
        simp only [List.length_cons]
        omega

theorem emit_first (cfg : Config) (w : List Nat) (w0 : Int)
    (t1 : EncodedToken) (T' : List EncodedToken) (out : Outputs)
    (S : List Nat)
    (hS : S = (if t1.isSuffix then cfg.suffixIndicator else []) ++
      ((t1 :: T').map (fun t => cfg.vocabArr.getD t.id [])).flatten)
    (htok : ∀ t ∈ t1 :: T', TokOK cfg t)
    (htail : ∀ t ∈ T', t.isSuffix = true)
    (hids : out.ids = [])
    (hlen : S.length ≤ w.length)
    (halign : S = w.take S.length) :
    ((t1 :: T').foldl (fun acc t => appendTokenToOutput cfg ModeFull w w0
        acc.2 t acc.1) (out, 0)).2 = S.length ∧
    DState cfg w
      ((t1 :: T').foldl (fun acc t => appendTokenToOutput cfg ModeFull w w0
        acc.2 t acc.1) (out, 0)).1.ids
      ((t1 :: T').foldl (fun acc t => appendTokenToOutput cfg ModeFull w w0
        acc.2 t acc.1) (out, 0)).2 ∧
    ((t1 :: T').foldl (fun acc t => appendTokenToOutput cfg ModeFull w w0
        acc.2 t acc.1) (out, 0)).1.ids =
      (t1 :: T').map (fun t => t.id) ∧
    ((t1 :: T').foldl (fun acc t => appendTokenToOutput cfg ModeFull w w0
        acc.2 t acc.1) (out, 0)).1.pieces.length =
      out.pieces.length + (T'.length + 1) ∧
    1 ≤ ((t1 :: T').foldl (fun acc t => appendTokenToOutput cfg ModeFull w
        w0 acc.2 t acc.1) (out, 0)).2 := by
  obtain htok1 := htok t1 (by simp)
  have hvl : (cfg.vocabArr.getD t1.id []).length = t1.length := htok1.1
  have hvl' : (cfg.vocabArr[t1.id]?.getD []).length = t1.length := by
    rw [← List.getD_eq_getElem?_getD]
    exact hvl
  have ht1len : 1 ≤ t1.length := htok1.2.1
  have htok' : ∀ u ∈ T', TokOK cfg u ∧ u.isSuffix = true :=
    fun u hu => ⟨htok u (by simp [hu]), htail u hu⟩
  have hadv : (appendTokenToOutput cfg ModeFull w w0 0 t1 out).2 =
      (if t1.isSuffix then cfg.suffixIndicator.length else 0) +
        t1.length := by
    rw [appendFull_adv]
    cases hsf : t1.isSuffix
    · simp
    · simp
      omega
  have hids1 := (appendFull_ids cfg w w0 0 t1 out).1
  have hpl1 := (appendFull_ids cfg w w0 0 t1 out).2
  have hSsplit : S = ((if t1.isSuffix then cfg.suffixIndicator else []) ++
      cfg.vocabArr.getD t1.id []) ++
      ((T'.map (fun u => cfg.vocabArr.getD u.id [])).flatten) := by
    rw [hS]
    simp [List.append_assoc]
  have hlead : ((if t1.isSuffix then cfg.suffixIndicator else []) ++
      cfg.vocabArr.getD t1.id []).length =
      (if t1.isSuffix then cfg.suffixIndicator.length else 0) +
        t1.length := by
    cases hsf : t1.isSuffix <;> simp [hsf, hvl']
  have hSlen : S.length =
      ((if t1.isSuffix then cfg.suffixIndicator.length else 0) +
        t1.length) +
      ((T'.map (fun u => cfg.vocabArr.getD u.id [])).flatten).length := by
    rw [hSsplit]
    rw [List.length_append, hlead]
  have hhead : (if t1.isSuffix then cfg.suffixIndicator else []) ++
      cfg.vocabArr.getD t1.id [] =
      w.take ((if t1.isSuffix then cfg.suffixIndicator.length else 0) +
        t1.length) := by
    have h1 : ((if t1.isSuffix then cfg.suffixIndicator else []) ++
        cfg.vocabArr.getD t1.id []) = S.take
        ((if t1.isSuffix then cfg.suffixIndicator.length else 0) +
          t1.length) := by
      rw [hSsplit, ← hlead, List.take_left]
    rw [h1, halign, List.take_take, Nat.min_eq_left (by omega)]
  have hrest : (T'.map (fun u => cfg.vocabArr.getD u.id [])).flatten =
      (w.drop ((if t1.isSuffix then cfg.suffixIndicator.length else 0) +
        t1.length)).take
        ((T'.map (fun u => cfg.vocabArr.getD u.id [])).flatten).length := by
    have h1 : ((if t1.isSuffix then cfg.suffixIndicator else []) ++
        cfg.vocabArr.getD t1.id []) ++
        (T'.map (fun u => cfg.vocabArr.getD u.id [])).flatten =
        (w.drop 0).take
          (((if t1.isSuffix then cfg.suffixIndicator else []) ++
            cfg.vocabArr.getD t1.id []).length +
          ((T'.map (fun u => cfg.vocabArr.getD u.id [])).flatten).length) := by
      rw [← hSsplit, List.drop_zero, ← List.length_append, ← hSsplit,
        ← halign]
    have h2 := (take_split h1).2
    rw [Nat.zero_add, hlead] at h2
    exact h2
  have hcomp : ([t1.id].foldl (detokStep cfg) ([], [])) =
      ([], (if cfg.vocabIsSuffixArr.getD t1.id false then
        [cfg.suffixIndicator] else []) ++ [cfg.vocabArr.getD t1.id []]) := by
    simp only [List.foldl_cons, List.foldl_nil]
    exact detokStep_start cfg t1.id
  have hflageq : cfg.vocabIsSuffixArr.getD t1.id false = t1.isSuffix :=
    htok1.2.2
  have hD1 : DState cfg w
      (appendTokenToOutput cfg ModeFull w w0 0 t1 out).1.ids
      (appendTokenToOutput cfg ModeFull w w0 0 t1 out).2 := by
    rw [hids1, hids, hadv]
    simp only [List.nil_append]
    refine ⟨by rw [hcomp], by rw [hcomp]; simp, ?_⟩
    rw [hcomp]
    simp only [hflageq]
    cases hsf : t1.isSuffix
    · have hh := hhead
      simp only [hsf, Bool.false_eq_true, if_false, List.nil_append] at hh ⊢
      simp only [List.flatten_cons, List.flatten_nil, List.append_nil]
      rw [hh, Nat.zero_add]
    · have hh := hhead
      simp only [hsf, if_true] at hh ⊢
      simp only [List.singleton_append, List.flatten_cons, List.flatten_nil,
        List.append_nil]
      rw [← hh]
  have hlen2 : ((if t1.isSuffix then cfg.suffixIndicator.length else 0) +
      t1.length) +
      ((T'.map (fun u => cfg.vocabArr.getD u.id [])).flatten).length ≤
      w.length := by
    omega
  have hrec := emit_tail cfg w w0 T'
    (appendTokenToOutput cfg ModeFull w w0 0 t1 out).1
    (appendTokenToOutput cfg ModeFull w w0 0 t1 out).2
    htok' ?hcc ?hl ?ha ?hd
  case hcc => rw [hadv]; omega
  case hl => rw [hadv]; exact hlen2
  case ha => rw [hadv]; exact hrest
  case hd => exact hD1
  simp only [List.foldl_cons]
  refine ⟨?_, hrec.2.1, ?_, ?_, ?_⟩
  · rw [hrec.1, hadv, hSlen]
  · rw [hrec.2.2.1, hids1, hids]
    simp only [List.nil_append, List.map_cons]
    rfl
  · rw [hrec.2.2.2, hpl1]
    omega
  · rw [hrec.1, hadv]
    omega

theorem follow_inv (cfg : Config) (str : Nat → List Nat)
    (hrt : RoundTripOK cfg str) (w : List Nat) (w0 : Int) (p node : Nat)
    (out : Outputs) (c : Nat) (hinv : SWInv cfg str w p node out c)
    (node' : Nat) (out' : Outputs) (c' : Nat)
    (h : tryFollowFailureLinkAndCollectTokens cfg ModeFull w w0 c node out =
      some (node', out', c')) :
    SWInv cfg str w p node' out' c' ∧ 1 ≤ c' := by
  have hind := hrt.1
  have hsfx := hrt.2.2.1
  have hdata := hrt.2.2.2.2.2.2.1
  have hfail := hrt.2.2.2.2.2.2.2.1
  obtain ⟨hcle, hple, hnok, hsync, hdisj⟩ := hinv
  have hwtp : (w.take p).length = p := by
    simp [List.length_take]
    omega
  unfold tryFollowFailureLinkAndCollectTokens at h
  cases hd : trieData cfg node with
  | some t =>
    rw [hd] at h
    simp only [Option.some.injEq, Prod.mk.injEq] at h
    obtain ⟨rfl, rfl, rfl⟩ := h
    have hdok := hdata (node, t) (trieData_mem cfg node t hd)
    have hvl : (cfg.vocabArr.getD t.id []).length = t.length := hdok.1.1
    rcases hdisj with ⟨hc0, hids0, hstr⟩ | ⟨hc1, hidsne, hstr, hDS⟩
    · -- nothing emitted yet; the node string is the whole consumed prefix
      subst hc0
      have hSstr : (if t.isSuffix then cfg.suffixIndicator else []) ++
          cfg.vocabArr.getD t.id [] = w.take p := by
        rw [← hdok.2.2.2, hstr]
      have hSlen : ((if t.isSuffix then cfg.suffixIndicator else []) ++
          cfg.vocabArr.getD t.id []).length = p := by
        rw [hSstr, hwtp]
      have hemit := emit_first cfg w w0 t [] out
        ((if t.isSuffix then cfg.suffixIndicator else []) ++
          cfg.vocabArr.getD t.id [])
        (by simp) (by intro u hu; simp at hu; rw [hu]; exact hdok.1)
        (by simp) hids0 (by rw [hSlen]; exact hple)
        (by rw [hSlen, hSstr])
      simp only [List.foldl_cons, List.foldl_nil] at hemit
      refine ⟨⟨?_, hple, Or.inr hdok.2.1, ?_, Or.inr ⟨hemit.2.2.2.2, ?_,
        ?_, ?_⟩⟩, hemit.2.2.2.2⟩
      · rw [hemit.1, hSlen]
      · rw [hemit.2.2.2.1, (appendFull_ids cfg w w0 0 t out).1, hids0,
          hsync, hids0]
        simp
      · rw [hemit.2.2.1]
        simp
      · rw [hdok.2.1, hsfx, hemit.1, hSlen]
        simp
      · exact hemit.2.1
    · -- tokens already emitted; the node string has the phantom indicator
      have hpre : (str node).take cfg.suffixIndicator.length =
          cfg.suffixIndicator := by
        rw [hstr]
        exact List.take_left cfg.suffixIndicator _
      have hsfT : t.isSuffix = true := hdok.2.2.1 hpre
      have hvocab : cfg.vocabArr.getD t.id [] =
          (w.drop c).take (p - c) := by
        have h1 := hdok.2.2.2
        rw [hsfT, if_pos rfl, hstr] at h1
        exact (List.append_cancel_left h1.symm)
      have htlen : t.length = p - c := by
        rw [← hvl, hvocab]
        simp [List.length_take]
        omega
      have hemit := emit_tail cfg w w0 [t] out c
        (by intro u hu; simp at hu; rw [hu]; exact ⟨hdok.1, hsfT⟩) hc1
        (by simp only [List.map_cons, List.map_nil, List.flatten_cons,
              List.flatten_nil, List.append_nil]
            rw [hvl, htlen]; omega)
        (by simp only [List.map_cons, List.map_nil, List.flatten_cons,
              List.flatten_nil, List.append_nil]
            rw [hvocab]
            simp [List.length_take])
        hDS
      simp only [List.foldl_cons, List.foldl_nil, List.map_cons,
        List.map_nil, List.flatten_cons, List.flatten_nil,
        List.append_nil] at hemit
      have hcfin : (appendTokenToOutput cfg ModeFull w w0 c t out).2 = p := by
        rw [hemit.1, hvl, htlen]
        omega
      refine ⟨⟨?_, hple, Or.inr hdok.2.1, ?_, Or.inr ⟨?_, ?_, ?_, ?_⟩⟩, ?_⟩
      · rw [hcfin]
      · rw [(appendFull_ids cfg w w0 c t out).2,
          (appendFull_ids cfg w w0 c t out).1, hsync]
        simp
      · rw [hcfin]; omega
      · rw [(appendFull_ids cfg w w0 c t out).1]
        simp
      · rw [hdok.2.1, hsfx, hcfin]
        simp
      · rw [hcfin]
        have := hemit.2.1
        rw [hcfin] at this
        exact this
      · rw [hcfin]; omega
  | none =>
    rw [hd] at h
    by_cases hl : (failureStructAt cfg node).failureLink = cfg.nullNode
    · rw [if_pos hl] at h
      exact Option.noConfusion h
    · rw [if_neg hl] at h
      simp only [Option.some.injEq, Prod.mk.injEq] at h
      obtain ⟨rfl, rfl, rfl⟩ := h
      have hpok := hfail (node, failureStructAt cfg node)
        (failureStructAt_mem cfg node hl) hd hl
      obtain ⟨hPne, hPtok, hPtail, hPhead, hPlink, hPeq⟩ := hpok
      cases hP : popsSlice cfg (failureStructAt cfg node) with
      | nil => exact absurd hP hPne
      | cons t1 T' =>
        rw [hP] at hPtok hPtail hPhead hPeq
        simp only [List.headD_cons] at hPhead hPeq
        have hRdef : str ((failureStructAt cfg node).failureLink) =
            cfg.suffixIndicator ++
            (str ((failureStructAt cfg node).failureLink)).drop
              cfg.suffixIndicator.length := hPlink
        rcases hdisj with ⟨hc0, hids0, hstr⟩ | ⟨hc1, hidsne, hstr, hDS⟩
        · -- nothing emitted yet
          subst hc0
          have hSR : ((if t1.isSuffix then cfg.suffixIndicator else []) ++
              ((t1 :: T').map (fun u => cfg.vocabArr.getD u.id
                [])).flatten) ++
              (str ((failureStructAt cfg node).failureLink)).drop
                cfg.suffixIndicator.length = w.take p := by
            rw [← hstr, hPeq]
          have hSlen3 : (if t1.isSuffix then cfg.suffixIndicator else
              []).length +
              (((t1 :: T').map (fun u => cfg.vocabArr.getD u.id
                [])).flatten).length +
              ((str ((failureStructAt cfg node).failureLink)).drop
                cfg.suffixIndicator.length).length = p := by
            have h0 := congrArg List.length hSR
            rw [hwtp] at h0
            simp only [List.length_append] at h0
            exact h0
          have hApp : ((if t1.isSuffix then cfg.suffixIndicator else []) ++
              ((t1 :: T').map (fun u => cfg.vocabArr.getD u.id
                [])).flatten).length =
              (if t1.isSuffix then cfg.suffixIndicator else []).length +
              (((t1 :: T').map (fun u => cfg.vocabArr.getD u.id
                [])).flatten).length := by
            simp
          have hStake : (if t1.isSuffix then cfg.suffixIndicator else []) ++
              ((t1 :: T').map (fun u => cfg.vocabArr.getD u.id
                [])).flatten =
              w.take (((if t1.isSuffix then cfg.suffixIndicator else []) ++
              ((t1 :: T').map (fun u => cfg.vocabArr.getD u.id
                [])).flatten).length) := by
            calc (if t1.isSuffix then cfg.suffixIndicator else []) ++
                ((t1 :: T').map (fun u => cfg.vocabArr.getD u.id
                  [])).flatten
                = (((if t1.isSuffix then cfg.suffixIndicator else []) ++
                  ((t1 :: T').map (fun u => cfg.vocabArr.getD u.id
                    [])).flatten) ++
                  ((str ((failureStructAt cfg node).failureLink)).drop
                    cfg.suffixIndicator.length)).take
                  (((if t1.isSuffix then cfg.suffixIndicator else []) ++
                  ((t1 :: T').map (fun u => cfg.vocabArr.getD u.id
                    [])).flatten).length) := (List.take_left _ _).symm
              _ = (w.take p).take
                  (((if t1.isSuffix then cfg.suffixIndicator else []) ++
                  ((t1 :: T').map (fun u => cfg.vocabArr.getD u.id
                    [])).flatten).length) := by rw [hSR]
              _ = w.take (min (((if t1.isSuffix then cfg.suffixIndicator
                  else []) ++ ((t1 :: T').map (fun u => cfg.vocabArr.getD
                  u.id [])).flatten).length) p) := by rw [List.take_take]
              _ = w.take (((if t1.isSuffix then cfg.suffixIndicator else
                  []) ++ ((t1 :: T').map (fun u => cfg.vocabArr.getD u.id
                  [])).flatten).length) := by
                  rw [Nat.min_eq_left (by omega)]
          have hemit := emit_first cfg w w0 t1 T' out _ rfl hPtok hPtail
            hids0 (by omega) hStake
          refine ⟨⟨?_, hple, Or.inl hl, ?_, Or.inr ⟨hemit.2.2.2.2, ?_, ?_,
            ?_⟩⟩, hemit.2.2.2.2⟩
          · rw [hemit.1]; omega
          · rw [hemit.2.2.2.1, hemit.2.2.1, hsync, hids0]
            simp
          · rw [hemit.2.2.1]
            simp
          · rw [hemit.1]
            nth_rewrite 1 [hRdef]
            have hR2 : (str ((failureStructAt cfg node).failureLink)).drop
                cfg.suffixIndicator.length =
                (w.drop (((if t1.isSuffix then cfg.suffixIndicator else
                  []) ++ ((t1 :: T').map (fun u => cfg.vocabArr.getD u.id
                  [])).flatten).length)).take (p -
                  (((if t1.isSuffix then cfg.suffixIndicator else []) ++
                  ((t1 :: T').map (fun u => cfg.vocabArr.getD u.id
                  [])).flatten).length)) := by
              have h1 : (str ((failureStructAt cfg node).failureLink)).drop
                  cfg.suffixIndicator.length = (w.take p).drop
                  (((if t1.isSuffix then cfg.suffixIndicator else []) ++
                  ((t1 :: T').map (fun u => cfg.vocabArr.getD u.id
                  [])).flatten).length) := by
                rw [← hSR]
                simp
              rw [h1, List.drop_take]
            rw [← hR2]
          · exact hemit.2.1
        · -- tokens already emitted
          have hpre : (str node).take cfg.suffixIndicator.length =
              cfg.suffixIndicator := by
            rw [hstr]
            exact List.take_left cfg.suffixIndicator _
          have hsfT : t1.isSuffix = true := hPhead hpre
          have hVR : ((t1 :: T').map (fun u => cfg.vocabArr.getD u.id
              [])).flatten ++
              (str ((failureStructAt cfg node).failureLink)).drop
                cfg.suffixIndicator.length = (w.drop c).take (p - c) := by
            have h1 := hPeq
            rw [if_pos hsfT, hstr] at h1
            simp only [List.append_assoc] at h1
            exact (List.append_cancel_left h1.symm)
          have hlen1 : (((t1 :: T').map (fun u => cfg.vocabArr.getD u.id
              [])).flatten).length +
              ((str ((failureStructAt cfg node).failureLink)).drop
                cfg.suffixIndicator.length).length = p - c := by
            have h0 := congrArg List.length hVR
            rw [List.length_append] at h0
            have h2 : ((w.drop c).take (p - c)).length = p - c := by
              simp [List.length_take, List.length_drop]
              omega
            rw [h2] at h0
            exact h0
          have hsplit : ((t1 :: T').map (fun u => cfg.vocabArr.getD u.id
              [])).flatten = (w.drop c).take
              ((((t1 :: T').map (fun u => cfg.vocabArr.getD u.id
              [])).flatten).length) ∧
              (str ((failureStructAt cfg node).failureLink)).drop
                cfg.suffixIndicator.length =
              (w.drop (c + (((t1 :: T').map (fun u => cfg.vocabArr.getD
                u.id [])).flatten).length)).take
              (((str ((failureStructAt cfg node).failureLink)).drop
                cfg.suffixIndicator.length).length) := by
            apply take_split
            rw [hVR]
            congr 1
            omega
          have hemit := emit_tail cfg w w0 (t1 :: T') out c
            (by intro u hu
                rcases List.mem_cons.mp hu with rfl | hu2
                · exact ⟨hPtok u (by simp), hsfT⟩
                · exact ⟨hPtok u (by simp [hu2]), hPtail u hu2⟩)
            hc1 (by omega) hsplit.1 hDS
          refine ⟨⟨?_, hple, Or.inl hl, ?_, Or.inr ⟨?_, ?_, ?_, ?_⟩⟩, ?_⟩
          · rw [hemit.1]; omega
          · rw [hemit.2.2.2, hemit.2.2.1, hsync]
            simp
          · rw [hemit.1]; omega
          · rw [hemit.2.2.1]
            simp [hidsne]
          · have harg : ((str ((failureStructAt cfg
                node).failureLink)).drop
                cfg.suffixIndicator.length).length =
                p - (c + (((t1 :: T').map (fun u => cfg.vocabArr.getD u.id
                  [])).flatten).length) := by omega
            rw [hemit.1]
            nth_rewrite 1 [hRdef]
            rw [hsplit.2, harg]
          · exact hemit.2.1
          · rw [hemit.1]; omega

theorem foldl_full_ids (cfg : Config) (w : List Nat) (w0 : Int) :
    ∀ (T : List EncodedToken) (out : Outputs) (c : Nat),
    (T.foldl (fun acc t => appendTokenToOutput cfg ModeFull w w0 acc.2 t
        acc.1) (out, c)).1.ids = out.ids ++ T.map (fun t => t.id) := by
  intro T
  induction T with
  | nil => intro out c; simp
  | cons t T' ih =>
    intro out c
    rw [List.foldl_cons, ih]
    rw [(appendFull_ids cfg w w0 c t out).1]
    simp

theorem reset_ids_zero (cfg : Config) (w0 : Int) (sz : Nat) (out : Outputs) :
    (resetOutputAppendUnknownToken cfg ModeFull w0 sz 0 out).1.ids =
      [cfg.unkTokenId] := by
  simp [resetOutputAppendUnknownToken, ModeFull, listResize]

theorem detok_final (cfg : Config) (w : List Nat) (ids : List Nat)
    (hdet : cfg.supportDetokenization = true)
    (h1 : (ids.foldl (detokStep cfg) ([], [])).1 = [])
    (h2 : (ids.foldl (detokStep cfg) ([], [])).2 ≠ [])
    (h3 : ((ids.foldl (detokStep cfg) ([], [])).2).flatten = w) :
    detokenizeToTokens cfg ids = .ok [w] := by
  unfold detokenizeToTokens
  rw [hdet]
  have hne : ((ids.foldl (detokStep cfg) ([], [])).2).isEmpty = false := by
    cases hx : (ids.foldl (detokStep cfg) ([], [])).2 with
    | nil => exact absurd hx h2
    | cons a l => rfl
  simp only [Bool.not_eq_true, if_false, hne, h1, h3, if_true,
    Bool.not_false, List.nil_append, not_true, Bool.false_eq_true]
  simp

theorem matchLoop_ok (cfg : Config) (str : Nat → List Nat)
    (hrt : RoundTripOK cfg str) (w : List Nat) (w0 : Int) (p b : Nat)
    (hb : w[p]? = some b) :
    ∀ (fuel node : Nat) (out : Outputs) (c : Nat),
    SWInv cfg str w p node out c →
    ∀ (node' : Nat) (out' : Outputs) (c' : Nat),
    matchLoop cfg ModeFull w w0 [b] fuel node out c = .ok node' out' c' →
    SWInv cfg str w (p + 1) node' out' c' := by
  have hplt : p < w.length := by
    by_contra hc
    push_neg at hc
    rw [List.getElem?_eq_none hc] at hb
    exact Option.noConfusion hb
  intro fuel
  induction fuel with
  | zero =>
    intro node out c hinv node' out' c' h
    exact absurd h (by simp [matchLoop])
  | succ fuel ih =>
    intro node out c hinv node' out' c' h
    unfold matchLoop at h
    rw [traverse_single] at h
    cases hs : trieStep cfg node b with
    | some n1 =>
      rw [hs] at h
      simp only [FWRes.ok.injEq] at h
      obtain ⟨rfl, rfl, rfl⟩ := h
      have hsem := trieStep_sem cfg str hrt node b n1 hs
      obtain ⟨hcle, hple, hnok, hsync, hdisj⟩ := hinv
      refine ⟨by omega, by omega, Or.inl hsem.2, hsync, ?_⟩
      rcases hdisj with ⟨hc0, hids0, hstr⟩ | ⟨hc1, hidsne, hstr, hDS⟩
      · refine Or.inl ⟨hc0, hids0, ?_⟩
        rw [hsem.1, hstr, List.take_succ, hb]
        rfl
      · refine Or.inr ⟨hc1, hidsne, ?_, hDS⟩
        have hdb : (w.drop c)[p - c]? = some b := by
          rw [List.getElem?_drop]
          rw [show c + (p - c) = p from by omega]
          exact hb
        have htk : (w.drop c).take (p - c + 1) =
            (w.drop c).take (p - c) ++ [b] := by
          rw [List.take_succ, hdb]
          rfl
        rw [hsem.1, hstr, show p + 1 - c = p - c + 1 from by omega, htk,
          List.append_assoc]
    | none =>
      rw [hs] at h
      cases hf : tryFollowFailureLinkAndCollectTokens cfg ModeFull w w0 c
          node out with
      | none =>
        rw [hf] at h
        exact FWRes.noConfusion h
      | some tr =>
        obtain ⟨n1, o1, c1⟩ := tr
        rw [hf] at h
        have hstep := follow_inv cfg str hrt w w0 p node out c hinv n1 o1 c1
          hf
        exact ih n1 o1 c1 hstep.1 node' out' c' h

theorem swLoop_done (cfg : Config) (str : Nat → List Nat)
    (hrt : RoundTripOK cfg str) (w : List Nat) (w0 : Int) (fuel : Nat) :
    ∀ (rest : List Nat) (p node : Nat) (out : Outputs) (c : Nat),
    w.drop p = rest →
    SWInv cfg str w p node out c →
    ∀ (node' : Nat) (out' : Outputs) (c' : Nat),
    swLoop cfg ModeFull w w0 fuel rest node out c = .done node' out' c' →
    SWInv cfg str w w.length node' out' c' := by
  intro rest
  induction rest with
  | nil =>
    intro p node out c hdrop hinv node' out' c' h
    simp only [swLoop, SWRes.done.injEq] at h
    obtain ⟨rfl, rfl, rfl⟩ := h
    have hlen : w.length ≤ p := by
      have := congrArg List.length hdrop
      simp only [List.length_drop, List.length_nil] at this
      omega
    have hple : p ≤ w.length := hinv.2.1
    have hp : p = w.length := by omega
    rw [hp] at hinv
    exact hinv
  | cons b rest ih =>
    intro p node out c hdrop hinv node' out' c' h
    have hb : w[p]? = some b := by
      have h0 := List.getElem?_drop w p 0
      rw [hdrop] at h0
      simpa using h0.symm
    have hdrop1 : w.drop (p + 1) = rest := by
      have h0 : w.drop (p + 1) = (w.drop p).drop 1 := by
        rw [List.drop_drop]
      rw [h0, hdrop]
      rfl
    unfold swLoop at h
    cases hm : matchLoop cfg ModeFull w w0 [b] fuel node out c with
    | ok n1 o1 c1 =>
      rw [hm] at h
      exact ih (p + 1) n1 o1 c1 hdrop1
        (matchLoop_ok cfg str hrt w w0 p b hb fuel node out c hinv n1 o1 c1
          hm) node' out' c' h
    | fail n1 o1 c1 =>
      rw [hm] at h
      exact SWRes.noConfusion h
    | nofuel =>
      rw [hm] at h
      exact SWRes.noConfusion h

theorem hrLoop_ok (cfg : Config) (str : Nat → List Nat)
    (hrt : RoundTripOK cfg str) (w : List Nat) (w0 : Int) :
    ∀ (fuel node : Nat) (out : Outputs) (c : Nat),
    SWInv cfg str w w.length node out c →
    (node = cfg.trieSuffixRoot → out.pieces.length ≠ 0) →
    ∀ (node' : Nat) (out' : Outputs) (c' : Nat),
    hrLoop cfg ModeFull w w0 fuel node out c = .success node' out' c' →
    out'.ids ≠ [] ∧ DState cfg w out'.ids w.length := by
  intro fuel
  induction fuel with
  | zero =>
    intro node out c hinv hentry node' out' c' h
    exact HRes.noConfusion h
  | succ fuel ih =>
    intro node out c hinv hentry node' out' c' h
    unfold hrLoop at h
    by_cases hx : node = cfg.trieSuffixRoot ∨
        node = cfg.triePunctFailureLinkNode
    · rw [if_pos hx] at h
      simp only [HRes.success.injEq] at h
      obtain ⟨rfl, rfl, rfl⟩ := h
      obtain ⟨hcle, hple, hnok, hsync, hdisj⟩ := hinv
      have hsr : node = cfg.trieSuffixRoot := by
        rcases hx with h1 | h2
        · exact h1
        · rcases hnok with h3 | h3
          · rw [hrt.2.2.2.1] at h2
            exact absurd h2 h3
          · exact h3
      rcases hdisj with ⟨hc0, hids0, hstr⟩ | ⟨hc1, hidsne, hstr, hDS⟩
      · exfalso
        apply hentry hsr
        rw [hsync, hids0]
        rfl
      · have hstr2 : str node = cfg.suffixIndicator := by
          rw [hsr, hrt.2.2.1]
        have hnil : (w.drop c).take (w.length - c) = [] := by
          have h1 : cfg.suffixIndicator ++ ([] : List Nat) =
              cfg.suffixIndicator ++ (w.drop c).take (w.length - c) := by
            calc cfg.suffixIndicator ++ ([] : List Nat)
                = cfg.suffixIndicator := List.append_nil _
              _ = str node := hstr2.symm
              _ = cfg.suffixIndicator ++
                  (w.drop c).take (w.length - c) := hstr
          have h2 := List.append_cancel_left h1
          exact h2.symm
        have hcw : c = w.length := by
          have h1 := congrArg List.length hnil
          simp only [List.length_take, List.length_drop,
            List.length_nil] at h1
          omega
        rw [← hcw]
        exact ⟨hidsne, hDS⟩
    · rw [if_neg hx] at h
      cases hf : tryFollowFailureLinkAndCollectTokens cfg ModeFull w w0 c
          node out with
      | none =>
        rw [hf] at h
        exact HRes.noConfusion h
      | some tr =>
        obtain ⟨n1, o1, c1⟩ := tr
        rw [hf] at h
        have hstep := follow_inv cfg str hrt w w0 w.length node out c hinv
          n1 o1 c1 hf
        apply ih n1 o1 c1 hstep.1 ?_ node' out' c' h
        intro _
        obtain ⟨_, _, _, hsync1, hdisj1⟩ := hstep.1
        rcases hdisj1 with ⟨hc0, _, _⟩ | ⟨_, hidsne1, _, _⟩
        · omega
        · rw [hsync1]
          intro hz
          exact hidsne1 (List.eq_nil_of_length_eq_zero hz)

/-- C8: for every single pre-tokenized word `w` on a model with
`support_detokenization` whose trie satisfies the builder invariants (stated
as `RoundTripOK` through a ghost path-string assignment `str`), if
`TokenizeSingleWordImpl` succeeds from empty outputs and emits no token with
id `unk_token_id`, then `DetokenizeToTokens` applied to the emitted ids
returns exactly the one-element list `[w]`. -/
theorem claim_c8 (cfg : Config) (str : Nat → List Nat)
    (hrt : RoundTripOK cfg str) (w : List Nat) (w0 : Int) (fuel : Nat)
    (outF : Outputs) (hw : w ≠ [])
    (hdet : cfg.supportDetokenization = true)
    (hrun : tokenizeSingleWordImpl cfg ModeFull w w0 fuel emptyOutputs =
      some outF)
    (hnounk : cfg.unkTokenId ∉ outF.ids) :
    detokenizeToTokens cfg outF.ids = .ok [w] := by
  unfold tokenizeSingleWordImpl at hrun
  have hie : w.isEmpty = false := by
    cases w with
    | nil => exact absurd rfl hw
    | cons a l => rfl
  rw [hie] at hrun
  simp only [Bool.false_eq_true, if_false] at hrun
  have horig0 : currentSize ModeFull emptyOutputs = 0 := rfl
  rw [horig0] at hrun
  by_cases hmb : w.length > cfg.maxBytesPerToken
  · rw [if_pos hmb] at hrun
    simp only [Option.some.injEq] at hrun
    exfalso
    apply hnounk
    rw [← hrun, reset_ids_zero]
    simp
  · rw [if_neg hmb] at hrun
    cases hsw : swLoop cfg ModeFull w w0 fuel w cfg.trieRootId emptyOutputs
        0 with
    | nofuel =>
      rw [hsw] at hrun
      exact Option.noConfusion hrun
    | unk o1 c1 =>
      rw [hsw] at hrun
      dsimp only at hrun
      simp only [Option.some.injEq] at hrun
      exfalso
      apply hnounk
      rw [← hrun, reset_ids_zero]
      simp
    | done node out1 c1 =>
      rw [hsw] at hrun
      dsimp only at hrun
      have hinv0 : SWInv cfg str w 0 cfg.trieRootId emptyOutputs 0 := by
        refine ⟨Nat.le_refl 0, Nat.zero_le _, Or.inl hrt.2.2.2.2.1, rfl,
          Or.inl ⟨rfl, rfl, ?_⟩⟩
        rw [hrt.2.1]
        simp
      have hinvL := swLoop_done cfg str hrt w w0 fuel w 0 cfg.trieRootId
        emptyOutputs 0 (List.drop_zero w) hinv0 node out1 c1 hsw
      obtain ⟨hcle1, hple1, hnok1, hsync1, hdisj1⟩ := hinvL
      have hnroot : node ≠ cfg.trieRootId := by
        intro hroot
        rcases hdisj1 with ⟨_, _, hstr1⟩ | ⟨_, _, hstr1, _⟩
        · rw [hroot, hrt.2.1, List.take_length] at hstr1
          exact hw hstr1.symm
        · rw [hroot, hrt.2.1] at hstr1
          exact hrt.1 (List.append_eq_nil.mp hstr1.symm).1
      unfold handleTheRemainingStringOnTriePath at hrun
      rw [if_neg hnroot] at hrun
      cases hthv : tryHandleTheInputWordBeingSuffixIndicatorItself cfg
          ModeFull w w0 node c1 0 out1 with
      | some pr =>
        obtain ⟨outT, cT⟩ := pr
        rw [hthv] at hrun
        dsimp only at hrun
        simp only [Option.some.injEq] at hrun
        unfold tryHandleTheInputWordBeingSuffixIndicatorItself at hthv
        by_cases hsr : node = cfg.trieSuffixRoot
        · rw [if_neg (not_not_intro hsr)] at hthv
          by_cases hcs : currentSize ModeFull out1 = 0
          · rw [if_neg (not_not_intro hcs)] at hthv
            have hp0 : out1.pieces.length = 0 := hcs
            have hids0 : out1.ids = [] := by
              apply List.eq_nil_of_length_eq_zero
              rw [← hsync1]
              exact hp0
            have hwind : w = cfg.suffixIndicator := by
              rcases hdisj1 with ⟨_, _, hstr1⟩ | ⟨_, hne1, _, _⟩
              · rw [hsr, hrt.2.2.1, List.take_length] at hstr1
                exact hstr1.symm
              · exact absurd hids0 hne1
            by_cases hpc : cfg.precomputedResultForSuffixIndicator.length =
                1 ∧ (cfg.precomputedResultForSuffixIndicator.headD
                  ⟨0, 0, false⟩).id = cfg.unkTokenId
            · rw [if_pos hpc] at hthv
              simp only [Option.some.injEq, Prod.mk.injEq] at hthv
              exfalso
              apply hnounk
              rw [← hrun, ← hthv.1, reset_ids_zero]
              simp
            · rw [if_neg hpc] at hthv
              simp only [Option.some.injEq] at hthv
              have hTfst : (List.foldl (fun acc t => appendTokenToOutput
                  cfg ModeFull w w0 acc.2 t acc.1) (out1, c1)
                  cfg.precomputedResultForSuffixIndicator).1 = outT := by
                rw [hthv]
              have h9 := hrt.2.2.2.2.2.2.2.2 hpc
              have hidsF : outF.ids =
                  cfg.precomputedResultForSuffixIndicator.map
                    (fun t => t.id) := by
                rw [← hrun, ← hTfst, foldl_full_ids, hids0,
                  List.nil_append]
              exact detok_final cfg w outF.ids hdet
                (by rw [hidsF]; exact h9.1)
                (by rw [hidsF]; exact h9.2.1)
                (by rw [hidsF, h9.2.2, hwind])
          · exfalso
            rw [if_pos hcs] at hthv
            exact Option.noConfusion hthv
        · exfalso
          rw [if_pos hsr] at hthv
          exact Option.noConfusion hthv
      | none =>
        rw [hthv] at hrun
        have hentry : node = cfg.trieSuffixRoot →
            out1.pieces.length ≠ 0 := by
          intro hsr hp0
          unfold tryHandleTheInputWordBeingSuffixIndicatorItself at hthv
          rw [if_neg (not_not_intro hsr)] at hthv
          have hcs0 : currentSize ModeFull out1 = 0 := hp0
          rw [if_neg (not_not_intro hcs0)] at hthv
          by_cases hpc : cfg.precomputedResultForSuffixIndicator.length =
              1 ∧ (cfg.precomputedResultForSuffixIndicator.headD
                ⟨0, 0, false⟩).id = cfg.unkTokenId
          · rw [if_pos hpc] at hthv
            exact Option.noConfusion hthv
          · rw [if_neg hpc] at hthv
            exact Option.noConfusion hthv
        cases hhr : hrLoop cfg ModeFull w w0 fuel node out1 c1 with
        | nofuel =>
          rw [hhr] at hrun
          exact Option.noConfusion hrun
        | failUnk o2 c2 =>
          rw [hhr] at hrun
          dsimp only at hrun
          simp only [Option.some.injEq] at hrun
          exfalso
          apply hnounk
          rw [← hrun, reset_ids_zero]
          simp
        | success n2 o2 c2 =>
          rw [hhr] at hrun
          dsimp only at hrun
          simp only [Option.some.injEq] at hrun
          have hres := hrLoop_ok cfg str hrt w w0 fuel node out1 c1
            ⟨hcle1, hple1, hnok1, hsync1, hdisj1⟩ hentry n2 o2 c2 hhr
          exact detok_final cfg w outF.ids hdet
            (by rw [← hrun]; exact hres.2.1)
            (by rw [← hrun]; exact hres.2.2.1)
            (by rw [← hrun, hres.2.2.2, List.take_length])

/-- Witness for C8 at the concrete model: tokenizing the word "abcz" emits
pieces `a`, `##bc`, `##z` (ids 0, 3, 4, no unknown token) and detokenizing
those ids returns exactly `["abcz"]`. -/
theorem claim_c8_witness :
    tokenizeSingleWordImpl cfgSW ModeFull [97, 98, 99, 122] 0 50
        emptyOutputs = some ⟨[[97], [35, 35, 98, 99], [35, 35, 122]],
        [0, 3, 4], [0, 1, 3], [1, 3, 4]⟩ ∧
    cfgSW.unkTokenId ∉ [0, 3, 4] ∧
    detokenizeToTokens cfgSW [0, 3, 4] = .ok [[97, 98, 99, 122]] :=
  ⟨by decide, by decide,
   claim_c8 cfgSW strW
     (by unfold RoundTripOK
         refine ⟨by decide, by decide, by decide, by decide, by decide,
           by decide, by unfold DataOK TokOK; decide,
           by unfold PopsOK TokOK; decide, by decide⟩) [97, 98, 99, 122]
     0 50
     ⟨[[97], [35, 35, 98, 99], [35, 35, 122]], [0, 3, 4], [0, 1, 3],
       [1, 3, 4]⟩ (by decide) rfl (by decide) (by decide)⟩
